import Mathlib

/-!
Formal model of the longform-ai chapter generation engine.

Text is modelled as `List Char` (a JS string is a sequence of code units).
Pure helper functions are translated from the TypeScript source:

* `packages/core/src/utils/refusal-detection.ts` — `normalizeQuotes`,
  `detectRefusal`, `stripRefusalPreamble`, `stripRefusalContent`;
* `packages/core/src/graph/nodes/writer.ts` — `countWords`, the
  refusal-retry loop and the expand loop of `writerNode`;
* `packages/core/src/book-session.ts` — `writeChapter`, `expandIfNeeded`,
  `stripExpandPreamble`, the edit-cycle loop, `updateOutline`,
  `updateContinuity`, `generateChapter`, `expandChapter`,
  `rewriteChapter`, `generateAllRemaining`;
* the token budget class (`buildContext`, `estimateTokens`);
* `graph/nodes/continuity.ts` — the rolling-summary cap enforcement;
* `graph/edges.ts` — `editorRouter`.

The concrete regular expressions of `REFUSAL_PATTERNS` (and the other
fixed regex tests of the refusal module) are kept abstract: they enter the
model as Boolean predicates on text, collected in a `RefusalRules` value.
Every theorem about the classification logic is proved for all rule sets,
hence in particular for the concrete pattern library of the source.

Model calls (`generateText` / `generateObject`) are external collaborators;
they enter the model as explicitly passed oracle values: the text a call
returned, `Option` for a call wrapped in try/catch, `Except` for a call
whose exception propagates.
-/

/-- Whitespace test used for `trim`, `split(/\s+/)` and `split(/\n\n+/)`
boundaries; models the common JS whitespace characters. -/
def isWS (c : Char) : Bool := c = ' ' || c = '\n' || c = '\t' || c = '\r'

/-- Left trim, as in the leading half of `String.prototype.trim`. -/
def trimL (cs : List Char) : List Char := cs.dropWhile isWS

/-- Right trim, as in the trailing half of `String.prototype.trim`. -/
def trimR (cs : List Char) : List Char := List.rdropWhile isWS cs

/-- Model of `text.trim()`. -/
def trim (cs : List Char) : List Char := trimR (trimL cs)

/-- Word counting automaton: counts maximal runs of non-whitespace
characters. The flag records whether the previous character was part of a
word. -/
def cwGo : Bool → List Char → Nat
  | _, [] => 0
  | inWord, c :: rest =>
    if isWS c then cwGo false rest
    else (if inWord then 0 else 1) + cwGo true rest

/-- Model of `countWords` from `graph/nodes/writer.ts`:
`text.split(/\s+/).filter(w => w.length > 0).length`, i.e. the number of
maximal non-whitespace runs. -/
def countWords (cs : List Char) : Nat := cwGo false cs

/-- Splitting automaton for `text.split(/\n\n+/)`. In mode `false` it
accumulates the current piece (reversed) and cuts when the input starts
with two newlines; in mode `true` it skips the remaining newlines of a
separator run. -/
def splitGo : Bool → List Char → List Char → List (List Char)
  | false, [], acc => [acc.reverse]
  | false, '\n' :: '\n' :: rest, acc => acc.reverse :: splitGo true rest []
  | false, c :: rest, acc => splitGo false rest (c :: acc)
  | true, [], _ => [[]]
  | true, '\n' :: rest, acc => splitGo true rest acc
  | true, c :: rest, _ => splitGo false rest [c]

/-- Model of `text.split(/\n\n+/)`: split on maximal runs of two or more
newlines. -/
def splitPP (cs : List Char) : List (List Char) := splitGo false cs []

/-- Model of `array.join('\n\n')`. -/
def joinPP : List (List Char) → List Char
  | [] => []
  | [p] => p
  | p :: ps => p ++ '\n' :: '\n' :: joinPP ps

/-- Splitting automaton for `text.split('\n')` (every newline separates). -/
def splitNlGo : List Char → List Char → List (List Char)
  | [], acc => [acc.reverse]
  | '\n' :: rest, acc => acc.reverse :: splitNlGo rest []
  | c :: rest, acc => splitNlGo rest (c :: acc)

/-- Model of `text.split('\n')`. -/
def splitNl (cs : List Char) : List (List Char) := splitNlGo cs []

/-- Model of `array.join('\n')`. -/
def joinNl : List (List Char) → List Char
  | [] => []
  | [p] => p
  | p :: ps => p ++ '\n' :: joinNl ps

/-- Sentence-terminating characters of the truncation fallback regex
`/(?<=[.!?])\s+/`. -/
def isSentEnd (c : Char) : Bool := c = '.' || c = '!' || c = '?'

/-- Test whether a list starts with a whitespace character. -/
def headWS : List Char → Bool
  | [] => false
  | c :: _ => isWS c

/-- Splitting automaton for `summary.split(/(?<=[.!?])\s+/)`: a cut occurs
after a sentence-end character that is followed by whitespace; the
whitespace run is consumed. Mode `true` is the skipping state. -/
def sentGo : Bool → List Char → List Char → List (List Char)
  | false, [], acc => [acc.reverse]
  | false, c :: rest, acc =>
    if isSentEnd c && headWS rest then (c :: acc).reverse :: sentGo true rest []
    else sentGo false rest (c :: acc)
  | true, [], _ => [[]]
  | true, c :: rest, acc =>
    if isWS c then sentGo true rest acc else sentGo false rest [c]

/-- Model of `summary.split(/(?<=[.!?])\s+/)` from the continuity node. -/
def sentencesOf (cs : List Char) : List (List Char) := sentGo false cs []

/-- Model of `normalizeQuotes` from `refusal-detection.ts`: smart single
and double quote variants are replaced by their ASCII forms. -/
def normalizeQuotes (cs : List Char) : List Char :=
  cs.map (fun c =>
    if c = '‘' || c = '’' || c = '‚' || c = '‹' || c = '›' then '\''
    else if c = '“' || c = '”' || c = '„' || c = '«' || c = '»' then '"'
    else c)

/-- Abstraction of the fixed regex library of `refusal-detection.ts`.
`patterns` stands for `REFUSAL_PATTERNS` (each entry is the Boolean test
of one regex against a text). `skipStructural` abstracts the four
structural skip tests of `stripRefusalPreamble` (numbered list, meta
line, markdown option header, horizontal rule). `optionListWords` is the
content part of the `isOptionList` test of `stripRefusalContent` (the two
keyword alternation regexes). All classification theorems are proved for
every such rule set. -/
structure RefusalRules where
  patterns : List (List Char → Bool)
  skipStructural : List Char → Bool
  optionListWords : List Char → Bool

/-- Model of `REFUSAL_PATTERNS.filter(p => p.test(s)).length`. -/
def matchCount (R : RefusalRules) (s : List Char) : Nat :=
  (R.patterns.filter (fun p => p s)).length

/-- Result record of `detectRefusal` (field `cleanedText` as in the
source interface `RefusalResult`). -/
structure RefusalResult where
  isRefusal : Bool
  cleanedText : List Char
deriving DecidableEq

/-- Paragraph test of the loop in `stripRefusalPreamble`: a paragraph is
the start of the story when, after trimming and quote normalization, it
is non-empty, is not skipped as structural meta text, and matches no
refusal pattern. -/
def isStoryPara (R : RefusalRules) (para : List Char) : Bool :=
  let p := normalizeQuotes (trim para)
  !p.isEmpty && !R.skipStructural p && matchCount R p == 0

/-- Model of `stripRefusalPreamble`: find the first paragraph that looks
like actual prose; if it exists at a positive index, drop everything
before it and rejoin; otherwise return the text unchanged. -/
def stripRefusalPreamble (R : RefusalRules) (text : List Char) : List Char :=
  let paragraphs := splitPP text
  match List.findIdx? (isStoryPara R) paragraphs with
  | some i => if 0 < i then trim (joinPP (paragraphs.drop i)) else text
  | none => text

/-- Model of `detectRefusal`: trim, normalize quotes, count pattern
matches on the first 500 characters; fewer than two matches is not a
refusal and the trimmed text is returned unchanged. -/
def detectRefusal (R : RefusalRules) (text : List Char) : RefusalResult :=
  let trimmed := trim text
  if trimmed.isEmpty then ⟨false, trimmed⟩
  else
    let normalized := normalizeQuotes trimmed
    let headPart := normalized.take 500
    if matchCount R headPart < 2 then ⟨false, trimmed⟩
    else ⟨true, stripRefusalPreamble R trimmed⟩

/-- Concrete bullet test `^(?:•|\*|-|\d+\.)\s` of the `isOptionList`
check in `stripRefusalContent`. -/
def bulletStart (cs : List Char) : Bool :=
  match cs with
  | '•' :: c :: _ => isWS c
  | '*' :: c :: _ => isWS c
  | '-' :: c :: _ => isWS c
  | _ =>
    match cs.takeWhile Char.isDigit, cs.dropWhile Char.isDigit with
    | _ :: _, '.' :: c :: _ => isWS c
    | _, _ => false

/-- Per-paragraph removal test of `stripRefusalContent`, applied to the
trimmed paragraph: two or more refusal pattern matches, or a structural
option-list bullet with alternative-offering keywords. -/
def isRefusalParagraph (R : RefusalRules) (trimmed : List Char) : Bool :=
  let normalized := normalizeQuotes trimmed
  decide (2 ≤ matchCount R normalized) ||
    (bulletStart trimmed && R.optionListWords normalized)

/-- Model of `stripRefusalContent` (the `scrub` operation): split the
whole text into paragraphs, keep whitespace-only paragraphs verbatim,
drop paragraphs that test as refusal content, rejoin with blank lines and
trim. -/
def stripRefusalContent (R : RefusalRules) (text : List Char) : List Char :=
  if (trim text).isEmpty then text
  else
    let paragraphs := splitPP text
    let cleaned := paragraphs.filter (fun para =>
      let trimmed := trim para
      trimmed.isEmpty || !isRefusalParagraph R trimmed)
    trim (joinPP cleaned)

/-- Context item passed to the token budget assembler (source interface
`ContextItem`; the optional `required` flag defaults to false). -/
structure ContextItem where
  key : List Char
  content : List Char
  priority : Int
  required : Bool
deriving DecidableEq

/-- Result record of `TokenBudget.buildContext` (source interface
`AssembledContext`). -/
structure AssembledContext where
  text : List Char
  totalTokens : Int
  includedItems : List (List Char)
  droppedItems : List (List Char)
deriving DecidableEq

/-- Model of `TokenBudget.estimateTokens`: `Math.ceil(text.length / 4)`. -/
def estimateTokens (text : List Char) : Int := ((text.length + 3) / 4 : Nat)

/-- Stable insertion of an item into a list sorted by descending
priority; an item is placed before the first strictly smaller priority
and after earlier items of equal priority. -/
def insertDesc (it : ContextItem) : List ContextItem → List ContextItem
  | [] => [it]
  | x :: xs => if x.priority ≤ it.priority then it :: x :: xs else x :: insertDesc it xs

/-- Model of `[...items].sort((a, b) => b.priority - a.priority)`: a
stable sort by descending priority. -/
def sortByPriorityDesc (items : List ContextItem) : List ContextItem :=
  items.foldr insertDesc []

/-- Second pass of `buildContext`: walk the non-required items in sorted
order; include an item while the running total stays within budget,
otherwise record its key as dropped. Returns content parts, included
keys, dropped keys and the final total. -/
def optionalPass (budget : Int) :
    List ContextItem → Int → List (List Char) × List (List Char) × List (List Char) × Int
  | [], total => ([], [], [], total)
  | it :: rest, total =>
    let tokens := estimateTokens it.content
    if total + tokens ≤ budget then
      let r := optionalPass budget rest (total + tokens)
      (it.content :: r.1, it.key :: r.2.1, r.2.2.1, r.2.2.2)
    else
      let r := optionalPass budget rest total
      (r.1, r.2.1, it.key :: r.2.2.1, r.2.2.2)

/-- Model of `TokenBudget.buildContext`: sort by descending priority,
include every required item first regardless of budget, then include
optional items greedily within the budget; the output text joins the
included contents with blank lines. -/
def buildContext (items : List ContextItem) (budget : Int) : AssembledContext :=
  let sorted := sortByPriorityDesc items
  let req := sorted.filter (fun it => it.required)
  let opt := sorted.filter (fun it => !it.required)
  let reqParts := req.map (fun it => it.content)
  let reqKeys := req.map (fun it => it.key)
  let reqTotal : Int := (req.map (fun it => estimateTokens it.content)).sum
  let r := optionalPass budget opt reqTotal
  { text := joinPP (reqParts ++ r.1)
    totalTokens := r.2.2.2
    includedItems := reqKeys ++ r.2.1
    droppedItems := r.2.2.1 }

/-- Chapter plan of the outline (source interface `ChapterPlan`). -/
structure ChapterPlan where
  number : Nat
  title : List Char
  summary : List Char
  targetWords : Int
  keyEvents : List (List Char)
  characters : List (List Char)
deriving DecidableEq

/-- Character profile of the outline (name and descriptive fields). -/
structure CharacterProfile where
  name : List Char
  role : List Char
  description : List Char
deriving DecidableEq

/-- Outline record (source interface `Outline`). -/
structure Outline where
  title : List Char
  synopsis : List Char
  themes : List (List Char)
  targetAudience : List Char
  chapters : List ChapterPlan
  characters : List CharacterProfile
deriving DecidableEq

/-- Partial chapter update of `OutlineChanges.updateChapter`. -/
structure ChapterUpdate where
  number : Nat
  title : Option (List Char)
  summary : Option (List Char)
  targetWords : Option Int
  keyEvents : Option (List (List Char))

/-- Chapter insertion request of `OutlineChanges.addChapter`. -/
structure ChapterAdd where
  afterChapter : Nat
  title : List Char
  summary : List Char
  targetWords : Option Int

/-- Chapter merge request of `OutlineChanges.mergeChapters`. -/
structure ChapterMerge where
  chapters : Nat × Nat
  newTitle : List Char

/-- Structural outline edits accepted by `updateOutline` (source
interface `OutlineChanges`). `updateCharacter` carries the effect of the
`Object.assign(char, update.changes)` partial update as a function. -/
structure OutlineChanges where
  synopsis : Option (List Char) := none
  themes : Option (List (List Char)) := none
  targetAudience : Option (List Char) := none
  removeChapters : Option (List Nat) := none
  updateChapter : Option (List ChapterUpdate) := none
  addChapter : Option (List ChapterAdd) := none
  mergeChapters : Option (List ChapterMerge) := none
  reorderChapters : Option (List Nat) := none
  addCharacter : Option (List CharacterProfile) := none
  removeCharacters : Option (List (List Char)) := none
  updateCharacter : Option (List (List Char × (CharacterProfile → CharacterProfile))) := none

/-- Replace the first element satisfying the test, as mutation of the
object returned by `Array.prototype.find` does in the source. -/
def modifyFirst (p : α → Bool) (f : α → α) : List α → List α
  | [] => []
  | x :: xs => if p x then f x :: xs else x :: modifyFirst p f xs

/-- Deduplication keeping first occurrences, as
`[...new Set([...a, ...b])]`. -/
def dedupFirstGo (seen : List (List Char)) : List (List Char) → List (List Char)
  | [] => []
  | x :: xs =>
    if seen.contains x then dedupFirstGo seen xs
    else x :: dedupFirstGo (x :: seen) xs

/-- Model of the `removeChapters` step of `updateOutline`. -/
def applyRemoveChapters (nums : List Nat) (chs : List ChapterPlan) : List ChapterPlan :=
  chs.filter (fun ch => !nums.contains ch.number)

/-- Model of one entry of the `updateChapter` step of `updateOutline`. -/
def applyUpdateOne (u : ChapterUpdate) (chs : List ChapterPlan) : List ChapterPlan :=
  modifyFirst (fun c => c.number == u.number)
    (fun ch =>
      { ch with
        title := u.title.getD ch.title
        summary := u.summary.getD ch.summary
        targetWords := u.targetWords.getD ch.targetWords
        keyEvents := u.keyEvents.getD ch.keyEvents }) chs

/-- Model of one entry of the `addChapter` step of `updateOutline`: the
new chapter carries number 0 until the final renumbering and is spliced
in after the chapter named by `afterChapter`, or pushed at the end. -/
def applyAddOne (defaultWords : Int) (a : ChapterAdd) (chs : List ChapterPlan) : List ChapterPlan :=
  let newChapter : ChapterPlan :=
    ⟨0, a.title, a.summary, a.targetWords.getD defaultWords, [], []⟩
  match chs.findIdx? (fun c => c.number == a.afterChapter) with
  | some i => chs.take (i + 1) ++ newChapter :: chs.drop (i + 1)
  | none => chs ++ [newChapter]

/-- Model of one entry of the `mergeChapters` step of `updateOutline`. -/
def applyMergeOne (m : ChapterMerge) (chs : List ChapterPlan) : List ChapterPlan :=
  match chs.find? (fun c => c.number == m.chapters.1),
        chs.find? (fun c => c.number == m.chapters.2) with
  | some _, some ch2 =>
    let merged := modifyFirst (fun c => c.number == m.chapters.1)
      (fun ch1 =>
        { ch1 with
          title := m.newTitle
          summary := ch1.summary ++ ' ' :: ch2.summary
          targetWords := ch1.targetWords + ch2.targetWords
          keyEvents := ch1.keyEvents ++ ch2.keyEvents
          characters := dedupFirstGo [] (ch1.characters ++ ch2.characters) }) chs
    merged.filter (fun c => c.number != m.chapters.2)
  | _, _ => chs

/-- Model of the `reorderChapters` step of `updateOutline`: keep exactly
the listed chapters, in the listed order. -/
def applyReorder (nums : List Nat) (chs : List ChapterPlan) : List ChapterPlan :=
  nums.filterMap (fun n => chs.find? (fun c => c.number == n))

/-- Final renumbering step of `updateOutline`:
`outline.chapters.forEach((ch, i) => ch.number = i + 1)`. -/
def renumber (chs : List ChapterPlan) : List ChapterPlan :=
  chs.enum.map (fun p => { p.2 with number := p.1 + 1 })

/-- Model of `BookSession.updateOutline` on an existing outline:
global field updates, then remove, update, add, merge and reorder edits
in source order, then sequential renumbering, then character edits.
`defaultWords` is the configured default target word count used for
added chapters. -/
def updateOutline (defaultWords : Int) (changes : OutlineChanges) (o : Outline) : Outline :=
  let chs1 := match changes.removeChapters with
    | some ns => applyRemoveChapters ns o.chapters
    | none => o.chapters
  let chs2 := match changes.updateChapter with
    | some us => us.foldl (fun l u => applyUpdateOne u l) chs1
    | none => chs1
  let chs3 := match changes.addChapter with
    | some adds => adds.foldl (fun l a => applyAddOne defaultWords a l) chs2
    | none => chs2
  let chs4 := match changes.mergeChapters with
    | some ms => ms.foldl (fun l m => applyMergeOne m l) chs3
    | none => chs3
  let chs5 := match changes.reorderChapters with
    | some ns => applyReorder ns chs4
    | none => chs4
  let chars1 := match changes.addCharacter with
    | some cs => o.characters ++ cs
    | none => o.characters
  let chars2 := match changes.removeCharacters with
    | some ns => chars1.filter (fun c => !ns.contains c.name)
    | none => chars1
  let chars3 := match changes.updateCharacter with
    | some us => us.foldl (fun l u => modifyFirst (fun c => c.name == u.1) u.2 l) chars2
    | none => chars2
  { o with
    synopsis := changes.synopsis.getD o.synopsis
    themes := changes.themes.getD o.themes
    targetAudience := changes.targetAudience.getD o.targetAudience
    chapters := renumber chs5
    characters := chars3 }

/-- Word cap of the rolling summary (`maxSummaryWords` in both
continuity implementations). -/
def maxSummaryWords : Nat := 2000

/-- Truncation loop of the continuity node fallback: append whole
sentences while the cap check passes. The check concatenates the
candidate sentence without a separating space, while the actual append
inserts one. -/
def truncGo : List (List Char) → List Char → List Char
  | [], truncated => truncated
  | sentence :: rest, truncated =>
    if maxSummaryWords < countWords (truncated ++ sentence) then truncated
    else truncGo rest (if truncated.isEmpty then sentence else truncated ++ ' ' :: sentence)

/-- Model of the sentence-level truncation fallback in
`graph/nodes/continuity.ts`. -/
def truncateBySentences (summary : List Char) : List Char :=
  truncGo (sentencesOf summary) []

/-- Rolling summary cap enforcement of `continuityNode`: over the cap,
one condensation call is attempted (`some` result adopted unchecked);
if it throws (`none`), fall back to sentence truncation. -/
def enforceSummaryCapNode (generated : List Char) (condensed : Option (List Char)) : List Char :=
  if maxSummaryWords < countWords generated then
    match condensed with
    | some c => c
    | none => truncateBySentences generated
  else generated

/-- Rolling summary cap enforcement of `BookSession.updateContinuity`:
over the cap, one condensation call is attempted (`some` result adopted
unchecked); if it throws (`none`), the generated summary is stored
unchanged. -/
def enforceSummaryCapSession (generated : List Char) (condensed : Option (List Char)) : List Char :=
  if maxSummaryWords < countWords generated then
    match condensed with
    | some c => c
    | none => generated
  else generated

/-- Refusal-retry loop of `BookSession.writeChapter`: each list entry is
the text one generation attempt returned (the source runs the initial
attempt plus up to 3 retries). A non-refusal attempt is returned
directly; a refusal is salvaged and the salvage tracked as best
candidate when it re-classifies as clean and beats the best word count.
When every attempt is a refusal, the best candidate is returned only
with at least 100 words, otherwise the empty draft. -/
def writeChapterGo (R : RefusalRules) :
    List (List Char) → List Char → Nat → List Char
  | [], bestText, bestWordCount => if 100 ≤ bestWordCount then bestText else []
  | text :: rest, bestText, bestWordCount =>
    let refusal := detectRefusal R text
    if !refusal.isRefusal then text
    else
      let cleanedRefusal := detectRefusal R refusal.cleanedText
      if !cleanedRefusal.isRefusal && bestWordCount < countWords refusal.cleanedText then
        writeChapterGo R rest refusal.cleanedText (countWords refusal.cleanedText)
      else
        writeChapterGo R rest bestText bestWordCount

/-- Model of `BookSession.writeChapter` over the attempt texts. -/
def writeChapter (R : RefusalRules) (attempts : List (List Char)) : List Char :=
  writeChapterGo R attempts [] 0

/-- Refusal-retry loop of `writerNode` in `graph/nodes/writer.ts`. It
tracks the best clean salvage exactly as `writeChapter`, but after the
loop it runs `if (!finalContent) finalContent = bestCleanedContent`:
the best salvage is adopted without any minimum word count. -/
def writerNodeRetryGo (R : RefusalRules) :
    List (List Char) → List Char → Nat → List Char
  | [], bestCleanedContent, _ => bestCleanedContent
  | text :: rest, bestCleanedContent, bestCleanedWordCount =>
    let refusal := detectRefusal R text
    if !refusal.isRefusal then (if text.isEmpty then bestCleanedContent else text)
    else
      let cleanedRefusal := detectRefusal R refusal.cleanedText
      if !cleanedRefusal.isRefusal && bestCleanedWordCount < countWords refusal.cleanedText then
        writerNodeRetryGo R rest refusal.cleanedText (countWords refusal.cleanedText)
      else
        writerNodeRetryGo R rest bestCleanedContent bestCleanedWordCount

/-- Model of the refusal-retry portion of `writerNode` over the attempt
texts. -/
def writerNodeRetry (R : RefusalRules) (attempts : List (List Char)) : List Char :=
  writerNodeRetryGo R attempts [] 0

/-- Concrete horizontal-rule line test `^-{3,}$` of
`stripExpandPreamble`. -/
def isHrLine (cs : List Char) : Bool :=
  3 ≤ cs.length && cs.all (fun c => c = '-')

/-- Leading-skippable count of `stripExpandPreamble`: the scan walks the
first five lines and stops at the first line that is neither blank, nor
meta commentary (`isMeta` abstracts the fixed meta regex), nor a
horizontal rule. -/
def countLeadingSkippable (isMeta : List Char → Bool) : List (List Char) → Nat
  | [] => 0
  | l :: rest =>
    let t := trim l
    if t.isEmpty || isMeta t || isHrLine t then countLeadingSkippable isMeta rest + 1
    else 0

/-- Model of `BookSession.stripExpandPreamble`: drop leading
meta-commentary lines (within the first five), rejoin and trim;
return the text unchanged when the first line is already content. -/
def stripExpandPreamble (isMeta : List Char → Bool) (text : List Char) : List Char :=
  let lines := splitNl text
  let startIdx := countLeadingSkippable isMeta (lines.take 5)
  if 0 < startIdx then trim (joinNl (lines.drop startIdx)) else text

/-- Expand loop of `BookSession.expandIfNeeded` over the per-attempt
generation results (list length = remaining attempts; the source allows
3). `minAcceptable` is `Math.floor(targetWords * (1 - tolerance))`.
A refusal attempt with an unusable salvage is skipped; a refusal with a
substantial clean salvage is adopted only if strictly longer, and the
loop then continues; a non-refusal result is stripped of its expand
preamble and adopted only if strictly longer, otherwise the loop breaks
and keeps the current text. -/
def expandLoop (R : RefusalRules) (isMeta : List Char → Bool) (minAcceptable : Nat) :
    List (List Char) → List Char → Nat → List Char
  | [], current, _ => current
  | raw :: rest, current, wordCount =>
    if wordCount < minAcceptable then
      let refusal := detectRefusal R raw
      if refusal.isRefusal then
        if (detectRefusal R refusal.cleanedText).isRefusal
            || countWords refusal.cleanedText < 100 then
          expandLoop R isMeta minAcceptable rest current wordCount
        else if wordCount < countWords refusal.cleanedText then
          expandLoop R isMeta minAcceptable rest refusal.cleanedText
            (countWords refusal.cleanedText)
        else
          expandLoop R isMeta minAcceptable rest current wordCount
      else
        let stripped := stripExpandPreamble isMeta raw
        if wordCount < countWords stripped then
          expandLoop R isMeta minAcceptable rest stripped (countWords stripped)
        else current
    else current

/-- Model of `BookSession.expandIfNeeded` over the attempt results. -/
def expandIfNeeded (R : RefusalRules) (isMeta : List Char → Bool) (minAcceptable : Nat)
    (attempts : List (List Char)) (content : List Char) : List Char :=
  expandLoop R isMeta minAcceptable attempts content (countWords content)

/-- Expand loop of `writerNode`: a refusal result is replaced by its
salvage without re-classification; any result is adopted only if
strictly longer, otherwise the loop breaks. -/
def writerExpandLoop (R : RefusalRules) (minAcceptable : Nat) :
    List (List Char) → List Char → Nat → List Char
  | [], current, _ => current
  | raw :: rest, current, wordCount =>
    if wordCount < minAcceptable then
      let refusal := detectRefusal R raw
      let expanded := if refusal.isRefusal then refusal.cleanedText else raw
      if wordCount < countWords expanded then
        writerExpandLoop R minAcceptable rest expanded (countWords expanded)
      else current
    else current

/-- Edit result scores (source schema `EditScoresSchema`). -/
structure EditScores where
  prose : Int
  plot : Int
  character : Int
  pacing : Int
  dialogue : Int
  overall : Int
deriving DecidableEq

/-- Editor verdict (source schema `EditResultSchema`); `approved` is the
Boolean the editing model returned. -/
structure EditResult where
  scores : EditScores
  approved : Bool
  rewriteInstructions : List Char
deriving DecidableEq

/-- One entry of the per-chapter edit history. -/
structure EditCycleRecord where
  cycle : Nat
  approved : Bool
deriving DecidableEq

/-- Session-level error taxonomy: the dedicated errors thrown by the
guard clauses of `BookSession`, plus `provider` for a propagated
generation-call failure. -/
inductive SessErr
  | outlineNotApproved
  | noOutline
  | noPendingChapters
  | chapterNotInOutline
  | chapterNotGenerated
  | provider
deriving DecidableEq

/-- Edit-cycle loop of `BookSession.generateChapter` (fuel is the
remaining cycle budget; `editCount` the cycles already run). `edits`,
`rewrites` and `expands` are the per-cycle oracle outcomes of
`editChapter`, `rewriteFromFeedback` and the in-cycle `expandIfNeeded`;
a thrown call propagates. Returns the final draft, the edit history and
the approval flag before the forced approval. -/
def editCyclesGo (edits : Nat → Except SessErr EditResult)
    (rewrites : Nat → Except SessErr (List Char))
    (expands : Nat → Except SessErr (List Char)) :
    Nat → Nat → List Char → List EditCycleRecord →
    Except SessErr (List Char × List EditCycleRecord × Bool)
  | 0, _, draft, hist => .ok (draft, hist, false)
  | fuel + 1, editCount, draft, hist =>
    match edits editCount with
    | .error e => .error e
    | .ok er =>
      let hist1 := hist ++ [⟨editCount + 1, er.approved⟩]
      if er.approved then .ok (draft, hist1, true)
      else
        match rewrites editCount with
        | .error e => .error e
        | .ok _ =>
          match expands editCount with
          | .error e => .error e
          | .ok d2 => editCyclesGo edits rewrites expands fuel (editCount + 1) d2 hist1

/-- Model of the edit-cycle loop over the configured maximum. -/
def runEditCycles (maxEditCycles : Nat) (edits : Nat → Except SessErr EditResult)
    (rewrites : Nat → Except SessErr (List Char))
    (expands : Nat → Except SessErr (List Char)) (draft : List Char) :
    Except SessErr (List Char × List EditCycleRecord × Bool) :=
  editCyclesGo edits rewrites expands maxEditCycles 0 draft []

/-- Routing targets of `editorRouter` in `graph/edges.ts`. -/
inductive EditorRoute
  | writer
  | continuity
deriving DecidableEq

/-- Model of `editorRouter`: approved goes to continuity; an exhausted
edit-cycle budget forces continuity; otherwise back to the writer. -/
def editorRouter (currentEditResult : Option EditResult)
    (editCount maxEditCycles : Nat) : EditorRoute :=
  if (match currentEditResult with | some er => er.approved | none => false) then
    .continuity
  else if maxEditCycles ≤ editCount then .continuity
  else .writer

/-- Chapter status values of the session controller. -/
inductive ChapterStatus
  | pending
  | generating
  | approved
  | failed
deriving DecidableEq

/-- Completed chapter record (source interface `ChapterContent`). -/
structure ChapterContent where
  number : Nat
  title : List Char
  content : List Char
  wordCount : Nat
  summary : List Char
  editCount : Nat
  approved : Bool
deriving DecidableEq

/-- Session phase of `BookSession`. -/
inductive SessionPhase
  | idle
  | outline
  | writing
  | complete
deriving DecidableEq

/-- Progress events the session emits (subset of the source event types
that the session controller emits directly; events emitted inside the
write and expand helpers are not tracked by this model). -/
inductive SessionEvent
  | chapterPlanGenerated (chapter : Nat)
  | chapterWritten (chapter : Nat)
  | editCycle (chapter : Nat) (cycle : Nat) (approved : Bool)
  | wordCountWarning (chapter : Nat)
  | chapterComplete (chapter : Nat)
  | chapterFailed (chapter : Nat)
deriving DecidableEq

/-- Insertion-ordered map update, as `Map.prototype.set`. -/
def mapSet : List (Nat × α) → Nat → α → List (Nat × α)
  | [], k, v => [(k, v)]
  | (k0, v0) :: rest, k, v =>
    if k0 = k then (k0, v) :: rest else (k0, v0) :: mapSet rest k v

/-- Map lookup, as `Map.prototype.get`. -/
def mapGet (m : List (Nat × α)) (k : Nat) : Option α :=
  (m.find? (fun p => p.1 = k)).map (fun p => p.2)

/-- Mutable state owned by `BookSession` (the `SessionState` interface;
the cost ledger and edit-history map are not tracked by this model). -/
structure SessionState where
  outline : Option Outline
  outlineApproved : Bool
  chapters : List (Nat × ChapterContent)
  chapterStatuses : List (Nat × ChapterStatus)
  rollingSummary : List Char
  previousChapterEnding : List Char
  phase : SessionPhase
  events : List SessionEvent
deriving DecidableEq

/-- Model of `BookSession.getNextPendingChapter`: the first outline
chapter whose recorded status is pending or failed. -/
def getNextPendingChapter (st : SessionState) : Option Nat :=
  match st.outline with
  | none => none
  | some o =>
    (o.chapters.find? (fun ch =>
      match mapGet st.chapterStatuses ch.number with
      | some ChapterStatus.pending => true
      | some ChapterStatus.failed => true
      | _ => false)).map (fun ch => ch.number)

/-- Oracle outcomes of the continuity model call inside
`BookSession.updateContinuity`: whether a continuity model is
configured, the summary generation outcome, and the condensation
outcome when attempted. -/
structure ContinuityOracles where
  hasModel : Bool
  generated : Except SessErr (List Char)
  condensed : Option (List Char)

/-- Model of `BookSession.updateContinuity`: best effort, never throws.
On success the capped summary is stored and the previous chapter ending
becomes the trailing 2000 characters of the chapter; a failed summary
call still updates the previous chapter ending (the catch branch). -/
def updateContinuity (co : ContinuityOracles) (chapter : ChapterContent)
    (st : SessionState) : SessionState :=
  if !co.hasModel then st
  else
    match co.generated with
    | .error _ => { st with previousChapterEnding := List.rtake chapter.content 2000 }
    | .ok newSummary =>
      { st with
        rollingSummary := enforceSummaryCapSession newSummary co.condensed
        previousChapterEnding := List.rtake chapter.content 2000 }

/-- Minimal model of the detailed chapter plan produced by the planning
step (only the fields the orchestration logic reads). -/
structure DetailedChapterPlan where
  chapterNumber : Nat
  title : List Char
  targetWords : Int
deriving DecidableEq

/-- Oracle outcomes of the generation calls one `generateChapter` run
makes, in pipeline order. A `.error` value models a thrown
provider/network error, which the corresponding source call does not
catch. The summary step is total because `generateChapterSummary`
catches internally. -/
structure ChapterOracles where
  plan : Except SessErr DetailedChapterPlan
  write : Except SessErr (List Char)
  expandAfterWrite : Except SessErr (List Char)
  edits : Nat → Except SessErr EditResult
  rewrites : Nat → Except SessErr (List Char)
  expandsInCycle : Nat → Except SessErr (List Char)
  summary : List Char

/-- Result record returned by a successful chapter generation (subset of
the source interface `ChapterResult`). -/
structure ChapterResultM where
  chapter : ChapterContent
  meetsTarget : Bool
  editHistory : List EditCycleRecord
deriving DecidableEq

/-- Fallible portion of the `generateChapter` pipeline, the body of its
try block up to the final draft: plan, write, expand, full-text refusal
scrub, then the edit cycles. -/
def chapterPipeline (R : RefusalRules) (maxEditCycles : Nat) (o : ChapterOracles) :
    Except SessErr (List Char × List EditCycleRecord × Bool) :=
  match o.plan with
  | .error e => .error e
  | .ok _ =>
    match o.write with
    | .error e => .error e
    | .ok _ =>
      match o.expandAfterWrite with
      | .error e => .error e
      | .ok draft1 =>
        let draft2 := stripRefusalContent R draft1
        runEditCycles maxEditCycles o.edits o.rewrites o.expandsInCycle draft2

/-- Model of `BookSession.generateChapter`. Guard clauses throw before
any state mutation; then the chapter status becomes generating, the
pipeline runs, and a propagated failure is caught once: the status is
set to failed, a `chapter_failed` event is emitted and the error is
rethrown. On success the continuity update runs, the chapter is stored
and approved, warning and completion events are emitted and the phase
may advance to complete. `checkWordTarget` abstracts the tolerance
computation of the source. -/
def generateChapterM (R : RefusalRules) (maxEditCycles : Nat)
    (checkWordTarget : Nat → Int → Bool) (o : ChapterOracles) (co : ContinuityOracles)
    (st : SessionState) (chapterNumber : Option Nat) :
    SessionState × Except SessErr ChapterResultM :=
  if !st.outlineApproved then (st, .error .outlineNotApproved)
  else
    match st.outline with
    | none => (st, .error .noOutline)
    | some outline =>
      match (match chapterNumber with
             | some n => some n
             | none => getNextPendingChapter st) with
      | none => (st, .error .noPendingChapters)
      | some targetChapter =>
        match outline.chapters.find? (fun c => c.number == targetChapter) with
        | none => (st, .error .chapterNotInOutline)
        | some chapterPlan =>
          let st1 := { st with
            chapterStatuses := mapSet st.chapterStatuses targetChapter .generating }
          match chapterPipeline R maxEditCycles o with
          | .error e =>
            ({ st1 with
               chapterStatuses := mapSet st1.chapterStatuses targetChapter .failed
               events := st1.events ++ [.chapterFailed targetChapter] }, .error e)
          | .ok (draft, hist, _) =>
            let chapter : ChapterContent :=
              { number := targetChapter
                title := chapterPlan.title
                content := draft
                wordCount := countWords draft
                summary := o.summary
                editCount := hist.length
                approved := true }
            let st2 := updateContinuity co chapter st1
            let st3 := { st2 with
              chapters := mapSet st2.chapters targetChapter chapter
              chapterStatuses := mapSet st2.chapterStatuses targetChapter .approved }
            let meets := checkWordTarget (countWords draft) chapterPlan.targetWords
            let st4 := { st3 with
              events := st3.events
                ++ (if meets then [] else [.wordCountWarning targetChapter])
                ++ [.chapterComplete targetChapter] }
            let st5 := if st4.chapters.length = outline.chapters.length then
                { st4 with phase := .complete } else st4
            (st5, .ok { chapter := chapter, meetsTarget := meets, editHistory := hist })

/-- Model of `BookSession.expandChapter`. The only guard is that the
chapter exists in the chapters map; the outline approval flag is never
consulted. `expandResult` is the outcome of the inner `expandIfNeeded`
call and `summary` the total summary step. -/
def expandChapterM (expandResult : Except SessErr (List Char)) (summary : List Char)
    (st : SessionState) (chapter : Nat) :
    SessionState × Except SessErr ChapterContent :=
  match mapGet st.chapters chapter with
  | none => (st, .error .chapterNotGenerated)
  | some existing =>
    let st1 := { st with chapterStatuses := mapSet st.chapterStatuses chapter .generating }
    match expandResult with
    | .error e => (st1, .error e)
    | .ok expanded =>
      let updatedChapter := { existing with
        content := expanded
        wordCount := countWords expanded
        summary := summary }
      ({ st1 with
         chapters := mapSet st1.chapters chapter updatedChapter
         chapterStatuses := mapSet st1.chapterStatuses chapter .approved },
       .ok updatedChapter)

/-- Model of `BookSession.rewriteChapter`: approval guard first, then
plan, rewrite, expand, a single edit cycle, summary, continuity, store.
A failure inside the try block marks the chapter failed and rethrows. -/
def rewriteChapterM (o : ChapterOracles) (co : ContinuityOracles)
    (st : SessionState) (chapter : Nat) :
    SessionState × Except SessErr ChapterContent :=
  if !st.outlineApproved then (st, .error .outlineNotApproved)
  else
    match st.outline with
    | none => (st, .error .noOutline)
    | some outline =>
      match outline.chapters.find? (fun c => c.number == chapter) with
      | none => (st, .error .chapterNotInOutline)
      | some chapterPlan =>
        let st1 := { st with
          chapterStatuses := mapSet st.chapterStatuses chapter .generating }
        let body : Except SessErr (List Char) :=
          match o.plan with
          | .error e => .error e
          | .ok _ =>
            match o.rewrites 0 with
            | .error e => .error e
            | .ok _ =>
              match o.expandAfterWrite with
              | .error e => .error e
              | .ok draft =>
                match o.edits 0 with
                | .error e => .error e
                | .ok _ => .ok draft
        match body with
        | .error e =>
          ({ st1 with
             chapterStatuses := mapSet st1.chapterStatuses chapter .failed }, .error e)
        | .ok draft =>
          let chapterContent : ChapterContent :=
            { number := chapter
              title := chapterPlan.title
              content := draft
              wordCount := countWords draft
              summary := o.summary
              editCount := 1
              approved := true }
          let st2 := updateContinuity co chapterContent st1
          ({ st2 with
             chapters := mapSet st2.chapters chapter chapterContent
             chapterStatuses := mapSet st2.chapterStatuses chapter .approved },
           .ok chapterContent)

/-- Loop body of `generateAllRemaining`: walk the outline chapters,
skip the ones already approved or failed, run `generateChapter` for the
rest, and on a propagated error mark the chapter failed, emit the
failure event and continue with the next chapter. Returns the final
state and the successfully generated results in order. -/
def generateAllGo (R : RefusalRules) (maxEditCycles : Nat)
    (checkWordTarget : Nat → Int → Bool)
    (oracleFor : Nat → ChapterOracles) (coFor : Nat → ContinuityOracles) :
    List ChapterPlan → SessionState → SessionState × List ChapterResultM
  | [], st => (st, [])
  | ch :: rest, st =>
    let status := mapGet st.chapterStatuses ch.number
    if status = some ChapterStatus.approved || status = some ChapterStatus.failed then
      generateAllGo R maxEditCycles checkWordTarget oracleFor coFor rest st
    else
      match generateChapterM R maxEditCycles checkWordTarget (oracleFor ch.number)
          (coFor ch.number) st (some ch.number) with
      | (st1, .ok result) =>
        let r := generateAllGo R maxEditCycles checkWordTarget oracleFor coFor rest st1
        (r.1, result :: r.2)
      | (st1, .error _) =>
        let stf := { st1 with
          chapterStatuses := mapSet st1.chapterStatuses ch.number .failed
          events := st1.events ++ [.chapterFailed ch.number] }
        generateAllGo R maxEditCycles checkWordTarget oracleFor coFor rest stf

/-- Model of `BookSession.generateAllRemaining` (the async generator,
consumed to completion): the approval guard throws on first use; then
every remaining chapter is attempted independently, and afterwards the
phase becomes complete when every chapter is approved or failed. -/
def generateAllRemainingM (R : RefusalRules) (maxEditCycles : Nat)
    (checkWordTarget : Nat → Int → Bool)
    (oracleFor : Nat → ChapterOracles) (coFor : Nat → ContinuityOracles)
    (st : SessionState) : SessionState × Except SessErr (List ChapterResultM) :=
  if !st.outlineApproved then (st, .error .outlineNotApproved)
  else
    match st.outline with
    | none => (st, .error .noOutline)
    | some outline =>
      let r := generateAllGo R maxEditCycles checkWordTarget oracleFor coFor
        outline.chapters st
      let st1 := r.1
      let allDone := outline.chapters.all (fun ch =>
        match mapGet st1.chapterStatuses ch.number with
        | some ChapterStatus.approved => true
        | some ChapterStatus.failed => true
        | _ => false)
      ((if allDone then { st1 with phase := .complete } else st1), .ok r.2)

/-- Concrete rule: the text starts with the letter X. -/
def ruleHeadX : List Char → Bool := fun s => s.take 1 == ['X']

/-- Concrete rule: the second character is the letter Y. -/
def ruleSecondY : List Char → Bool := fun s => (s.drop 1).take 1 == ['Y']

/-- Concrete two-pattern rule set used to instantiate the abstract
pattern library in witnesses and counterexamples. -/
def rulesXY : RefusalRules :=
  ⟨[ruleHeadX, ruleSecondY], fun _ => false, fun _ => false⟩

/-- Concrete text matching exactly one pattern of `rulesXY`. -/
def oneMatchText : List Char := ['X', 'a', 'b']

/-- Text of n words, each the single letter w, separated by single
spaces. -/
def repWords : Nat → List Char
  | 0 => []
  | 1 => ['w']
  | n + 2 => 'w' :: ' ' :: repWords (n + 1)

/-- Concrete refusal attempt for `rulesXY`: a two-pattern refusal head
paragraph followed by a clean salvage paragraph of k words. -/
def refusalAttempt (k : Nat) : List Char :=
  'X' :: 'Y' :: '\n' :: '\n' :: repWords k

/-- Concrete required context item with a five-character content
(two estimated tokens). -/
def demoRequiredItem : ContextItem := ⟨['a'], ['c', 'c', 'c', 'c', 'c'], 1, true⟩

/-- Concrete optional context item. -/
def demoOptionalItem : ContextItem := ⟨['b'], ['d', 'd', 'd', 'd'], 5, false⟩

/-- Concrete two-item context list whose required tokens alone exceed a
zero budget. -/
def demoItems : List ContextItem := [demoRequiredItem, demoOptionalItem]

/-- Concrete chapter plan constructor for small outline examples. -/
def demoChapter (n : Nat) (t : Char) : ChapterPlan := ⟨n, [t], [], 1000, [], []⟩

/-- Concrete three-chapter outline for the removal example. -/
def demoOutline3 : Outline :=
  ⟨['T'], [], [], [], [demoChapter 1 'A', demoChapter 2 'B', demoChapter 3 'C'], []⟩

/-- Concrete rejecting editor verdict. -/
def rejectingEdit : EditResult := ⟨⟨5, 5, 5, 5, 5, 5⟩, false, []⟩

/-- Concrete one-chapter outline for pipeline scenarios. -/
def demoOutline1 : Outline := ⟨['T'], [], [], [], [demoChapter 1 'A'], []⟩

/-- Concrete approved session state with chapter 1 pending. -/
def demoStateApproved : SessionState :=
  ⟨some demoOutline1, true, [], [(1, ChapterStatus.pending)], [], [], .writing, []⟩

/-- Concrete oracle set whose editor rejects every cycle and whose other
calls succeed. -/
def demoOraclesReject : ChapterOracles :=
  ⟨.ok ⟨1, ['A'], 1000⟩, .ok (repWords 5), .ok (repWords 5),
   fun _ => .ok rejectingEdit, fun _ => .ok (repWords 5), fun _ => .ok (repWords 5),
   []⟩

/-- Continuity oracles with no continuity model configured. -/
def demoContinuityOff : ContinuityOracles := ⟨false, .ok [], none⟩

/-- End-state of the word counting automaton after a text: whether the
last character was part of a word. -/
def lastState : Bool → List Char → Bool
  | st, [] => st
  | _, c :: rest => lastState (!isWS c) rest

/-- Join of the truncation loop: sentences accumulated with single
spaces, exactly as the loop appends them. -/
def sentJoin (ss : List (List Char)) : List Char :=
  ss.foldl (fun t s => if t.isEmpty then s else t ++ ' ' :: s) []

/-- Concrete summary of 2001 words arranged as one 2000-word sentence
followed by a one-word sentence, which the truncation fallback keeps in
full. -/
def demoOverflowSummary : List Char :=
  repWords 2000 ++ '.' :: ' ' :: 'b' :: ['.']

/-- Concrete completed chapter record for session scenarios. -/
def demoChapterContent : ChapterContent := ⟨1, ['A'], repWords 10, 10, [], 0, true⟩

/-- Concrete state with an unapproved outline that nevertheless holds a
generated chapter (reachable by regenerating the outline after a
chapter was generated, which resets the approval flag without clearing
the chapters map). -/
def demoStateUnapproved : SessionState :=
  ⟨some demoOutline1, false, [(1, demoChapterContent)], [(1, ChapterStatus.approved)],
   [], [], .writing, []⟩

/-- Oracle set whose planning call throws a provider error. -/
def demoOraclesFail : ChapterOracles :=
  ⟨.error .provider, .ok (repWords 5), .ok (repWords 5),
   fun _ => .ok rejectingEdit, fun _ => .ok (repWords 5), fun _ => .ok (repWords 5), []⟩

/-- Test for an occurrence of two consecutive newlines (a paragraph
separator of the split regex). -/
def hasNN : List Char → Bool
  | [] => false
  | [_] => false
  | c1 :: c2 :: rest => (c1 = '\n' && c2 = '\n') || hasNN (c2 :: rest)

/-- Test whether a text starts with a newline. -/
def startsNl : List Char → Bool
  | [] => false
  | c :: _ => c = '\n'

/-- Test whether a text ends with a newline. -/
def endsNl (cs : List Char) : Bool := startsNl cs.reverse

/-- Keep decision of the scrub filter, as a function of the paragraph:
whitespace-only paragraphs are kept verbatim, and otherwise the
paragraph is kept unless it tests as refusal content. -/
def keepPara (R : RefusalRules) (para : List Char) : Bool :=
  (trim para).isEmpty || !isRefusalParagraph R (trim para)

/-- Invariant of the pieces at positions one and later of a paragraph
split: no internal separator, no leading newline, and every piece other
than the last is nonempty and has no trailing newline. -/
def GoodTail : List (List Char) → Prop
  | [] => True
  | p :: ps => hasNN p = false ∧ startsNl p = false ∧
      (ps ≠ [] → endsNl p = false ∧ p ≠ []) ∧ GoodTail ps

/-- Invariant of a full paragraph-split piece list: the first piece has
no internal separator and no trailing newline unless it is last, and
the remaining pieces satisfy the tail invariant. -/
def GoodPieces : List (List Char) → Prop
  | [] => False
  | p :: ps => hasNN p = false ∧ (ps ≠ [] → endsNl p = false) ∧ GoodTail ps

/-- Left-trim of a piece list: drop leading whitespace-only pieces and
left-trim the first surviving piece. -/
def ltrimPieces : List (List Char) → List (List Char)
  | [] => []
  | p :: ps => if (trimL p).isEmpty then ltrimPieces ps else trimL p :: ps

/-- Right-trim of a piece list: drop trailing whitespace-only pieces
and right-trim the last surviving piece. -/
def rtrimPieces : List (List Char) → List (List Char)
  | [] => []
  | p :: ps =>
    match rtrimPieces ps with
    | [] => if (trimR p).isEmpty then [] else [trimR p]
    | q :: qs => p :: q :: qs

-- Theorems.

theorem insertDesc_perm (it : ContextItem) (l : List ContextItem) :
    (insertDesc it l).Perm (it :: l) := by
  induction l with
  | nil => simp [insertDesc]
  | cons x xs ih =>
    by_cases h : x.priority ≤ it.priority
    · simp [insertDesc, h]
    · simp only [insertDesc, if_neg h]
      exact (List.Perm.cons x ih).trans (List.Perm.swap it x xs)

theorem sortByPriorityDesc_perm (l : List ContextItem) :
    (sortByPriorityDesc l).Perm l := by
  induction l with
  | nil => exact List.Perm.refl _
  | cons x xs ih =>
    exact (insertDesc_perm x (sortByPriorityDesc xs)).trans (List.Perm.cons x ih)

theorem optionalPass_partition (budget : Int) (l : List ContextItem) (total : Int) :
    ((optionalPass budget l total).2.1 ++ (optionalPass budget l total).2.2.1).Perm
      (l.map (fun it => it.key)) := by
  induction l generalizing total with
  | nil => simp [optionalPass]
  | cons it rest ih =>
    by_cases h : total + estimateTokens it.content ≤ budget
    · simpa [optionalPass, h] using List.Perm.cons it.key (ih (total + estimateTokens it.content))
    · simp only [optionalPass, if_neg h, List.map_cons]
      exact List.perm_middle.trans (List.Perm.cons it.key (ih total))

/-- C6: buildContext always places every required item in
includedItems, even when the budget is below the required total, and
every item key lands in exactly one of includedItems and droppedItems:
their concatenation is a permutation of all item keys. -/
theorem buildContext_required_and_partition (items : List ContextItem) (budget : Int) :
    (∀ it ∈ items, it.required = true →
      it.key ∈ (buildContext items budget).includedItems) ∧
    ((buildContext items budget).includedItems
        ++ (buildContext items budget).droppedItems).Perm
      (items.map (fun it => it.key)) := by
  constructor
  · intro it hmem hreq
    have hsorted : it ∈ sortByPriorityDesc items :=
      ((sortByPriorityDesc_perm items).mem_iff).2 hmem
    have hfilter : it ∈ (sortByPriorityDesc items).filter (fun it => it.required) :=
      List.mem_filter.2 ⟨hsorted, by simp [hreq]⟩
    simp only [buildContext, List.mem_append]
    exact Or.inl (List.mem_map_of_mem (fun it => it.key) hfilter)
  · simp only [buildContext, List.append_assoc]
    have hopt := optionalPass_partition budget
      ((sortByPriorityDesc items).filter (fun it => !it.required))
      (((sortByPriorityDesc items).filter (fun it => it.required)).map
        (fun it => estimateTokens it.content)).sum
    have hperm1 :
        (((sortByPriorityDesc items).filter (fun it => it.required)).map (fun it => it.key)
          ++ (((sortByPriorityDesc items).filter (fun it => !it.required)).map
            (fun it => it.key))).Perm
          ((sortByPriorityDesc items).map (fun it => it.key)) := by
      have h1 := (List.filter_append_perm (fun it => it.required)
        (sortByPriorityDesc items)).map (fun it => it.key)
      simpa [List.map_append] using h1
    have hperm2 : ((sortByPriorityDesc items).map (fun it => it.key)).Perm
        (items.map (fun it => it.key)) := (sortByPriorityDesc_perm items).map _
    exact ((List.Perm.append_left _ hopt).trans hperm1).trans hperm2

/-- Witness for C6 at a concrete input: with budget 0 the required item
is still included. -/
theorem buildContext_required_witness :
    demoRequiredItem.key ∈ (buildContext demoItems 0).includedItems :=
  (buildContext_required_and_partition demoItems 0).1 demoRequiredItem
    (by decide) (by decide)

/-- C3: detectRefusal reports a refusal only when at least two distinct
patterns match the leading 500 characters of the quote-normalized
trimmed text, and with fewer than two matches the text is classified as
non-refusal and returned unchanged apart from trimming. Proved for
every pattern rule set, hence for the concrete REFUSAL_PATTERNS
library. -/
theorem detectRefusal_requires_two_matches (R : RefusalRules) (text : List Char) :
    ((detectRefusal R text).isRefusal = true →
      2 ≤ matchCount R ((normalizeQuotes (trim text)).take 500)) ∧
    (matchCount R ((normalizeQuotes (trim text)).take 500) < 2 →
      detectRefusal R text = ⟨false, trim text⟩) := by
  unfold detectRefusal
  by_cases he : (trim text).isEmpty
  · constructor
    · intro h
      simp [he] at h
    · intro _
      simp [he]
  · by_cases hm : matchCount R ((normalizeQuotes (trim text)).take 500) < 2
    · constructor
      · intro h
        simp [he, hm] at h
      · intro _
        simp [he, hm]
    · constructor
      · intro _
        omega
      · intro h
        exact absurd h hm

/-- Witness for C3 at a concrete input: a text matching exactly one of
the two concrete patterns is classified as non-refusal with the trimmed
text returned. -/
theorem detectRefusal_requires_two_matches_witness :
    detectRefusal rulesXY oneMatchText = ⟨false, trim oneMatchText⟩ :=
  (detectRefusal_requires_two_matches rulesXY oneMatchText).2 (by decide)

theorem renumber_map_number (chs : List ChapterPlan) :
    (renumber chs).map (fun c => c.number) = List.range' 1 chs.length := by
  unfold renumber
  induction chs with
  | nil => rfl
  | cons x xs ih =>
    simp only [List.enum_cons, List.map_cons, List.map_map, List.range'_succ]
    refine congrArg (fun l => 1 :: l) ?_
    have hmap : ∀ (l : List ChapterPlan) (k : Nat),
        (l.enumFrom k).map (fun p => { p.2 with number := p.1 + 1 : ChapterPlan }.number)
          = List.range' (k + 1) l.length := by
      intro l
      induction l with
      | nil => intro k; rfl
      | cons y ys ihy =>
        intro k
        simp only [List.enumFrom, List.map_cons, List.length_cons, List.range'_succ]
        exact congrArg (fun t => (k + 1) :: t) (ihy (k + 1))
    simpa using hmap xs 1

/-- C7: after any updateOutline edit combination the chapter numbers of
the resulting outline are exactly the contiguous sequence 1..N, and in
the concrete removal example the three-chapter outline loses chapter 2,
with the former chapter 3 renumbered to 2. -/
theorem updateOutline_contiguous_numbering (defaultWords : Int)
    (changes : OutlineChanges) (o : Outline) :
    ((updateOutline defaultWords changes o).chapters.map (fun c => c.number)
      = List.range' 1 (updateOutline defaultWords changes o).chapters.length) ∧
    ((updateOutline 1000 { removeChapters := some [2] } demoOutline3).chapters.map
      (fun c => (c.number, c.title)) = [(1, ['A']), (2, ['C'])]) := by
  constructor
  · show (renumber _).map _ = List.range' 1 (renumber _).length
    have hlen : ∀ chs : List ChapterPlan, (renumber chs).length = chs.length := by
      intro chs
      simp [renumber]
    rw [renumber_map_number, hlen]
  · decide

theorem editCyclesGo_all_reject (er : Nat → EditResult) (rw ex : Nat → List Char) :
    ∀ (fuel start : Nat) (draft : List Char) (hist : List EditCycleRecord),
    (∀ i, start ≤ i → i < start + fuel → (er i).approved = false) →
    ∃ d, editCyclesGo (fun i => .ok (er i)) (fun i => .ok (rw i)) (fun i => .ok (ex i))
        fuel start draft hist
      = .ok (d, hist ++ (List.range' (start + 1) fuel).map
          (fun c => ⟨c, false⟩), false) := by
  intro fuel
  induction fuel with
  | zero =>
    intro start draft hist _
    exact ⟨draft, by simp [editCyclesGo]⟩
  | succ n ih =>
    intro start draft hist hrej
    have h0 : (er start).approved = false := hrej start (Nat.le_refl _) (by omega)
    have hrest : ∀ i, start + 1 ≤ i → i < start + 1 + n → (er i).approved = false := by
      intro i h1 h2
      exact hrej i (by omega) (by omega)
    obtain ⟨d, hd⟩ := ih (start + 1) (ex start) (hist ++ [⟨start + 1, false⟩]) hrest
    refine ⟨d, ?_⟩
    simp only [editCyclesGo, h0, Bool.false_eq_true, if_false]
    rw [hd]
    simp [List.range'_succ]

theorem editCyclesGo_first_approval (er : Nat → EditResult) (rw ex : Nat → List Char) :
    ∀ (k fuel start : Nat) (draft : List Char) (hist : List EditCycleRecord),
    k < fuel →
    (∀ i, start ≤ i → i < start + k → (er i).approved = false) →
    (er (start + k)).approved = true →
    ∃ d, editCyclesGo (fun i => .ok (er i)) (fun i => .ok (rw i)) (fun i => .ok (ex i))
        fuel start draft hist
      = .ok (d, hist ++ (List.range' (start + 1) k).map (fun c => ⟨c, false⟩)
          ++ [⟨start + k + 1, true⟩], true) := by
  intro k
  induction k with
  | zero =>
    intro fuel start draft hist hk _ happ
    match fuel, hk with
    | n + 1, _ =>
      refine ⟨draft, ?_⟩
      simp only [editCyclesGo]
      simp only [Nat.add_zero] at happ
      simp [happ]
  | succ m ih =>
    intro fuel start draft hist hk hrej happ
    match fuel, hk with
    | n + 1, hk =>
      have h0 : (er start).approved = false := hrej start (Nat.le_refl _) (by omega)
      have hrest : ∀ i, start + 1 ≤ i → i < start + 1 + m → (er i).approved = false := by
        intro i h1 h2
        exact hrej i (by omega) (by omega)
      have happ1 : (er (start + 1 + m)).approved = true := by
        have : start + 1 + m = start + (m + 1) := by omega
        rw [this]
        exact happ
      obtain ⟨d, hd⟩ := ih n (start + 1) (ex start) (hist ++ [⟨start + 1, false⟩])
        (by omega) hrest happ1
      refine ⟨d, ?_⟩
      simp only [editCyclesGo, h0, Bool.false_eq_true, if_false]
      rw [hd]
      have harr : start + 1 + m + 1 = start + (m + 1) + 1 := by omega
      rw [harr]
      simp [List.range'_succ]

/-- C10: the editing stage approves exactly on editor approval or on an
exhausted edit-cycle budget. First conjunct: if every one of the first
maxEditCycles editor verdicts rejects, the loop runs exactly
maxEditCycles cycles, all recorded as rejected, and ends unapproved
(the pipeline then forces approval). Second conjunct: a first approval
at cycle k ends the loop approved after k+1 cycles. Third conjunct:
editorRouter routes to continuity exactly on approval or an exhausted
budget. Fourth conjunct: in the concrete scenario with maxEditCycles 3
and every cycle rejecting, generateChapter finalizes the chapter with
approved true after 3 recorded cycles and marks the chapter approved. -/
theorem editing_approval_policy :
    (∀ (mc : Nat) (er : Nat → EditResult) (rw ex : Nat → List Char) (draft : List Char),
      (∀ i, i < mc → (er i).approved = false) →
      ∃ d, runEditCycles mc (fun i => .ok (er i)) (fun i => .ok (rw i))
          (fun i => .ok (ex i)) draft
        = .ok (d, (List.range' 1 mc).map (fun c => ⟨c, false⟩), false)) ∧
    (∀ (mc k : Nat) (er : Nat → EditResult) (rw ex : Nat → List Char) (draft : List Char),
      k < mc →
      (∀ i, i < k → (er i).approved = false) →
      (er k).approved = true →
      ∃ d, runEditCycles mc (fun i => .ok (er i)) (fun i => .ok (rw i))
          (fun i => .ok (ex i)) draft
        = .ok (d, (List.range' 1 k).map (fun c => ⟨c, false⟩) ++ [⟨k + 1, true⟩], true)) ∧
    (∀ (oer : Option EditResult) (ec mc : Nat),
      editorRouter oer ec mc = .continuity ↔
        ((∃ e, oer = some e ∧ e.approved = true) ∨ mc ≤ ec)) ∧
    ((generateChapterM rulesXY 3 (fun _ _ => true) demoOraclesReject demoContinuityOff
        demoStateApproved (some 1)).2.toOption.map
          (fun r => (r.chapter.approved, r.editHistory))
      = some (true, [⟨1, false⟩, ⟨2, false⟩, ⟨3, false⟩]) ∧
     mapGet (generateChapterM rulesXY 3 (fun _ _ => true) demoOraclesReject
        demoContinuityOff demoStateApproved (some 1)).1.chapterStatuses 1
      = some ChapterStatus.approved) := by
  refine ⟨?_, ?_, ?_, ?_⟩
  · intro mc er rw ex draft hrej
    have := editCyclesGo_all_reject er rw ex mc 0 draft []
      (by intro i h1 h2; exact hrej i (by omega))
    simpa [runEditCycles] using this
  · intro mc k er rw ex draft hk hrej happ
    have := editCyclesGo_first_approval er rw ex k mc 0 draft [] hk
      (by intro i h1 h2; exact hrej i (by omega)) (by simpa using happ)
    simpa [runEditCycles] using this
  · intro oer ec mc
    cases oer with
    | none =>
      by_cases h : mc ≤ ec <;> simp [editorRouter, h]
    | some e =>
      by_cases ha : e.approved <;> by_cases h : mc ≤ ec <;>
        simp [editorRouter, ha, h]
  · constructor
    · decide
    · decide

/-- Witness for C10: with three rejecting cycles and budget 3 the loop
returns exactly three rejected records and no approval. -/
theorem editing_approval_policy_witness :
    ∃ d, runEditCycles 3 (fun _ => .ok rejectingEdit) (fun _ => .ok [])
        (fun _ => .ok []) []
      = .ok (d, (List.range' 1 3).map (fun c => ⟨c, false⟩), false) :=
  editing_approval_policy.1 3 (fun _ => rejectingEdit) (fun _ => []) (fun _ => []) []
    (fun _ _ => rfl)

theorem cwGo_append (a : List Char) : ∀ (st : Bool) (b : List Char),
    cwGo st (a ++ b) = cwGo st a + cwGo (lastState st a) b := by
  induction a with
  | nil => intro st b; simp [cwGo, lastState]
  | cons c rest ih =>
    intro st b
    by_cases h : isWS c
    · simp [cwGo, lastState, h, ih]
    · simp [cwGo, lastState, h, ih]
      omega

theorem cwGo_true_le (b : List Char) : ∀ (s : Bool), cwGo true b ≤ cwGo s b := by
  induction b with
  | nil => intro s; simp [cwGo]
  | cons c rest ih =>
    intro s
    cases s
    · by_cases h : isWS c <;> simp [cwGo, h]
    · exact Nat.le_refl _

theorem cwGo_le_true_succ (b : List Char) : ∀ (s : Bool), cwGo s b ≤ cwGo true b + 1 := by
  induction b with
  | nil => intro s; simp [cwGo]
  | cons c rest ih =>
    intro s
    cases s
    · by_cases h : isWS c
      · simp only [cwGo, h, if_true]
        have h1 := cwGo_true_le rest false
        omega
      · simp [cwGo, h]
        omega
    · omega

theorem countWords_append_le (a b : List Char) :
    countWords a + countWords b ≤ countWords (a ++ b) + 1 := by
  unfold countWords
  rw [cwGo_append]
  cases h : lastState false a
  · omega
  · have := cwGo_le_true_succ b false
    omega

theorem countWords_append_space (a b : List Char) :
    countWords (a ++ ' ' :: b) = countWords a + countWords b := by
  unfold countWords
  rw [cwGo_append]
  have hws : isWS ' ' = true := rfl
  simp [cwGo, hws]

theorem countWords_repWords (n : Nat) : countWords (repWords n) = n := by
  induction n with
  | zero => rfl
  | succ m ih =>
    match m with
    | 0 => rfl
    | k + 1 =>
      show cwGo false ('w' :: ' ' :: repWords (k + 1)) = k + 2
      have h1 : isWS 'w' = false := rfl
      have h2 : isWS ' ' = true := rfl
      have ih2 : cwGo false (repWords (k + 1)) = k + 1 := ih
      simp [cwGo, h1, h2]
      omega

theorem lastState_repWords (n : Nat) : lastState false (repWords (n + 1)) = true := by
  induction n with
  | zero => rfl
  | succ m ih =>
    show lastState false ('w' :: ' ' :: repWords (m + 1)) = true
    have h1 : (!isWS 'w') = true := rfl
    have h2 : (!isWS ' ') = false := rfl
    simp only [lastState, h1, h2]
    have : ∀ s : Bool, lastState s (repWords (m + 1)) = true := by
      intro s
      match m with
      | 0 => rfl
      | k + 1 =>
        show lastState _ ('w' :: ' ' :: repWords (k + 1)) = true
        simpa [lastState, h1, h2] using ih
    exact this false
  
theorem truncGo_le (ss : List (List Char)) : ∀ (t : List Char),
    countWords t ≤ maxSummaryWords + 1 →
    countWords (truncGo ss t) ≤ maxSummaryWords + 1 := by
  induction ss with
  | nil => intro t ht; simpa [truncGo] using ht
  | cons s rest ih =>
    intro t ht
    by_cases hg : maxSummaryWords < countWords (t ++ s)
    · simpa [truncGo, hg] using ht
    · push_neg at hg
      simp only [truncGo, if_neg (by omega : ¬ maxSummaryWords < countWords (t ++ s))]
      by_cases he : t.isEmpty
      · simp only [he, if_true]
        refine ih s ?_
        have : t = [] := by
          cases t with
          | nil => rfl
          | cons x xs => simp at he
        subst this
        simpa using hg.trans (Nat.le_succ _)
      · simp only [he, if_false]
        refine ih (t ++ ' ' :: s) ?_
        rw [countWords_append_space]
        have := countWords_append_le t s
        omega

theorem truncGo_shape (ss : List (List Char)) : ∀ (t : List Char),
    ∃ k, truncGo ss t = (ss.take k).foldl
      (fun t s => if t.isEmpty then s else t ++ ' ' :: s) t := by
  induction ss with
  | nil => intro t; exact ⟨0, rfl⟩
  | cons s rest ih =>
    intro t
    by_cases hg : maxSummaryWords < countWords (t ++ s)
    · exact ⟨0, by simp [truncGo, hg]⟩
    · obtain ⟨k, hk⟩ := ih (if t.isEmpty then s else t ++ ' ' :: s)
      refine ⟨k + 1, ?_⟩
      simp only [truncGo, if_neg hg, List.take_succ_cons, List.foldl_cons]
      exact hk

theorem sentGo_no_end (x : List Char) (hx : ∀ c ∈ x, isSentEnd c = false) :
    ∀ (acc rest0 : List Char),
    sentGo false (x ++ rest0) acc = sentGo false rest0 (x.reverse ++ acc) := by
  induction x with
  | nil => intro acc rest0; simp
  | cons c cs ih =>
    intro acc rest0
    have hc : isSentEnd c = false := hx c (List.mem_cons_self c cs)
    have hcs : ∀ d ∈ cs, isSentEnd d = false := fun d hd => hx d (List.mem_cons_of_mem c hd)
    show sentGo false (c :: (cs ++ rest0)) acc = _
    simp only [sentGo, hc, Bool.false_and, if_false]
    rw [ih hcs (c :: acc) rest0]
    simp

theorem repWords_no_sentEnd (n : Nat) : ∀ c ∈ repWords n, isSentEnd c = false := by
  induction n with
  | zero => intro c hc; simp [repWords] at hc
  | succ m ih =>
    match m with
    | 0 =>
      intro c hc
      simp [repWords] at hc
      subst hc
      rfl
    | k + 1 =>
      intro c hc
      show isSentEnd c = false
      have : c = 'w' ∨ c = ' ' ∨ c ∈ repWords (k + 1) := by
        simpa [repWords] using hc
      rcases this with h | h | h
      · subst h; rfl
      · subst h; rfl
      · exact ih c h

theorem sentencesOf_demoOverflow :
    sentencesOf demoOverflowSummary = [repWords 2000 ++ ['.'], ['b', '.']] := by
  unfold sentencesOf demoOverflowSummary
  rw [show repWords 2000 ++ '.' :: ' ' :: 'b' :: ['.']
      = repWords 2000 ++ ('.' :: ' ' :: 'b' :: ['.']) from rfl]
  rw [sentGo_no_end (repWords 2000) (repWords_no_sentEnd 2000) [] ('.' :: ' ' :: 'b' :: ['.'])]
  show sentGo false ('.' :: ' ' :: 'b' :: ['.']) ((repWords 2000).reverse ++ []) = _
  rw [List.append_nil]
  rw [show sentGo false ('.' :: ' ' :: 'b' :: ['.']) ((repWords 2000).reverse)
      = ('.' :: (repWords 2000).reverse).reverse :: sentGo true (' ' :: 'b' :: ['.']) []
      from rfl]
  rw [show sentGo true (' ' :: 'b' :: ['.']) [] = [['b', '.']] from rfl]
  simp

theorem lastState_append (a : List Char) : ∀ (st : Bool) (b : List Char),
    lastState st (a ++ b) = lastState (lastState st a) b := by
  induction a with
  | nil => intro st b; rfl
  | cons c cs ih =>
    intro st b
    show lastState (!isWS c) (cs ++ b) = lastState (lastState (!isWS c) cs) b
    exact ih _ b

theorem countWords_s1 : countWords (repWords 2000 ++ ['.']) = 2000 := by
  unfold countWords
  rw [cwGo_append]
  have h2 : lastState false (repWords 2000) = true := lastState_repWords 1999
  rw [h2]
  have h1 : cwGo false (repWords 2000) = 2000 := countWords_repWords 2000
  rw [h1]
  rfl

theorem countWords_demoOverflow : countWords demoOverflowSummary = 2001 := by
  unfold demoOverflowSummary countWords
  rw [cwGo_append]
  have h2 : lastState false (repWords 2000) = true := lastState_repWords 1999
  rw [h2]
  have h1 : cwGo false (repWords 2000) = 2000 := countWords_repWords 2000
  rw [h1]
  rfl

theorem truncate_demoOverflow :
    countWords (truncateBySentences demoOverflowSummary) = 2001 := by
  unfold truncateBySentences
  rw [sentencesOf_demoOverflow]
  have hne : (repWords 2000 ++ ['.']).isEmpty = false := by
    rw [show repWords 2000 = 'w' :: ' ' :: repWords 1999 from rfl]
    rfl
  have hls : lastState false (repWords 2000 ++ ['.']) = true := by
    rw [lastState_append, lastState_repWords 1999]
    rfl
  have hs12 : countWords ((repWords 2000 ++ ['.']) ++ ['b', '.']) = 2000 := by
    unfold countWords
    rw [cwGo_append, hls]
    have h1 : cwGo false (repWords 2000 ++ ['.']) = 2000 := countWords_s1
    rw [h1]
    rfl
  have hstep1 : truncGo [repWords 2000 ++ ['.'], ['b', '.']] []
      = truncGo [['b', '.']] (repWords 2000 ++ ['.']) := by
    simp only [truncGo, List.nil_append]
    rw [if_neg (by rw [countWords_s1]; show ¬ (2000 : Nat) < 2000; omega :
      ¬ maxSummaryWords < countWords (repWords 2000 ++ ['.']))]
    rfl
  have hstep2 : truncGo [['b', '.']] (repWords 2000 ++ ['.'])
      = (repWords 2000 ++ ['.']) ++ ' ' :: ['b', '.'] := by
    simp only [truncGo]
    rw [if_neg (by rw [hs12]; show ¬ (2000 : Nat) < 2000; omega :
      ¬ maxSummaryWords < countWords ((repWords 2000 ++ ['.']) ++ ['b', '.']))]
    rw [hne]
    rfl
  rw [hstep1, hstep2, countWords_append_space, countWords_s1]
  rfl

theorem enforceSummaryCapSession_none (g : List Char) :
    enforceSummaryCapSession g none = g := by
  unfold enforceSummaryCapSession
  split <;> rfl

/-- C1 counterexample: three concrete violations of the 2000-word cap.
First, updateContinuity with a 2001-word produced summary and a failed
condensation call stores the oversized summary unchanged (there is no
truncation fallback in BookSession). Second, a condensation call that
returns 2001 words is adopted unchecked by the continuity node. Third,
even the sentence-truncation fallback of the continuity node can store
2001 words, because its cap check joins the candidate sentence without
the separating space that the actual append inserts. -/
theorem continuity_cap_counterexample :
    maxSummaryWords < countWords (enforceSummaryCapSession (repWords 2001) none) ∧
    maxSummaryWords < countWords (enforceSummaryCapNode (repWords 2001) (some (repWords 2001))) ∧
    countWords (enforceSummaryCapNode demoOverflowSummary none) = maxSummaryWords + 1 := by
  have h2001 : countWords (repWords 2001) = 2001 := countWords_repWords 2001
  have hgt : maxSummaryWords < countWords (repWords 2001) := by
    rw [h2001]
    show 2000 < 2001
    omega
  refine ⟨?_, ?_, ?_⟩
  · rw [enforceSummaryCapSession_none, h2001]
    show 2000 < 2001
    omega
  · unfold enforceSummaryCapNode
    rw [if_pos hgt, h2001]
    show 2000 < 2001
    omega
  · unfold enforceSummaryCapNode
    rw [if_pos (by rw [countWords_demoOverflow]; show 2000 < 2001; omega :
      maxSummaryWords < countWords demoOverflowSummary)]
    rw [truncate_demoOverflow]
    rfl

/-- C1 amended: the rolling-summary cap behaves as follows. Within the
cap nothing changes. Above the cap, a successful condensation call is
adopted unchecked by both implementations. When condensation fails, the
continuity node truncates to a whole-sentence prefix, joined by single
spaces, of at most 2001 words (one above the cap, from the missing
space in the cap check), never cutting mid-sentence; while
BookSession.updateContinuity stores the oversized generated summary
unchanged. -/
theorem continuity_cap_amended :
    (∀ (g : List Char) (c : Option (List Char)), countWords g ≤ maxSummaryWords →
      enforceSummaryCapNode g c = g ∧ enforceSummaryCapSession g c = g) ∧
    (∀ (g c : List Char), maxSummaryWords < countWords g →
      enforceSummaryCapNode g (some c) = c ∧ enforceSummaryCapSession g (some c) = c) ∧
    (∀ g : List Char, countWords (truncateBySentences g) ≤ maxSummaryWords + 1) ∧
    (∀ g : List Char, ∃ k, truncateBySentences g = sentJoin ((sentencesOf g).take k)) ∧
    (∀ g : List Char, maxSummaryWords < countWords g →
      enforceSummaryCapNode g none = truncateBySentences g ∧
      enforceSummaryCapSession g none = g) := by
  refine ⟨?_, ?_, ?_, ?_, ?_⟩
  · intro g c hle
    have hnot : ¬ maxSummaryWords < countWords g := by omega
    constructor
    · unfold enforceSummaryCapNode
      rw [if_neg hnot]
    · unfold enforceSummaryCapSession
      rw [if_neg hnot]
  · intro g c hgt
    constructor
    · unfold enforceSummaryCapNode
      rw [if_pos hgt]
    · unfold enforceSummaryCapSession
      rw [if_pos hgt]
  · intro g
    exact truncGo_le (sentencesOf g) [] (by simp [countWords, cwGo])
  · intro g
    obtain ⟨k, hk⟩ := truncGo_shape (sentencesOf g) []
    exact ⟨k, by rw [truncateBySentences, hk]; rfl⟩
  · intro g hgt
    constructor
    · unfold enforceSummaryCapNode
      rw [if_pos hgt]
    · unfold enforceSummaryCapSession
      rw [if_pos hgt]

/-- Witness for the amended C1 at a concrete input: a one-word summary
is within the cap and stored unchanged by both implementations. -/
theorem continuity_cap_amended_witness :
    enforceSummaryCapNode ['w'] none = ['w'] ∧ enforceSummaryCapSession ['w'] none = ['w'] :=
  continuity_cap_amended.1 ['w'] none (by decide)

set_option maxRecDepth 100000 in
/-- C2: evaluation of both refusal-retry implementations on concrete
all-refusal runs. First conjunct: with salvaged lengths 40, 80, 150 and
60 words, BookSession.writeChapter selects the 150-word salvage (the
highest word count among clean salvages) as the draft. Second and third
conjuncts: when every attempt salvages only 9 clean words,
BookSession.writeChapter returns the empty draft as specified, but
writerNode adopts the 9-word salvage as the draft because the
documented 100-word acceptance gate is missing there. -/
theorem writer_refusal_salvage_bug :
    writeChapter rulesXY
      [refusalAttempt 40, refusalAttempt 80, refusalAttempt 150, refusalAttempt 60]
      = repWords 150 ∧
    writeChapter rulesXY
      [refusalAttempt 9, refusalAttempt 9, refusalAttempt 9, refusalAttempt 9] = [] ∧
    writerNodeRetry rulesXY
      [refusalAttempt 9, refusalAttempt 9, refusalAttempt 9, refusalAttempt 9]
      = repWords 9 ∧
    repWords 9 ≠ [] := by
  refine ⟨by decide, by decide, by decide, by decide⟩

theorem expandLoop_mono (R : RefusalRules) (isMeta : List Char → Bool) (minA : Nat) :
    ∀ (attempts : List (List Char)) (cur : List Char),
    countWords cur ≤ countWords (expandLoop R isMeta minA attempts cur (countWords cur)) := by
  intro attempts
  induction attempts with
  | nil => intro cur; simp [expandLoop]
  | cons raw rest ih =>
    intro cur
    unfold expandLoop
    by_cases hmin : countWords cur < minA
    · rw [if_pos hmin]
      by_cases href : (detectRefusal R raw).isRefusal = true
      · rw [if_pos href]
        by_cases hbad : ((detectRefusal R (detectRefusal R raw).cleanedText).isRefusal
            || decide (countWords (detectRefusal R raw).cleanedText < 100)) = true
        · rw [if_pos hbad]
          exact ih cur
        · rw [if_neg hbad]
          by_cases hlonger : countWords cur < countWords (detectRefusal R raw).cleanedText
          · rw [if_pos hlonger]
            have := ih (detectRefusal R raw).cleanedText
            omega
          · rw [if_neg hlonger]
            exact ih cur
      · rw [if_neg href]
        by_cases hlonger : countWords cur < countWords (stripExpandPreamble isMeta raw)
        · rw [if_pos hlonger]
          have := ih (stripExpandPreamble isMeta raw)
          omega
        · rw [if_neg hlonger]
    · rw [if_neg hmin]

theorem expandLoop_strict (R : RefusalRules) (isMeta : List Char → Bool) (minA : Nat) :
    ∀ (attempts : List (List Char)) (cur : List Char),
    expandLoop R isMeta minA attempts cur (countWords cur) ≠ cur →
    countWords cur < countWords (expandLoop R isMeta minA attempts cur (countWords cur)) := by
  intro attempts
  induction attempts with
  | nil => intro cur h; exact absurd rfl h
  | cons raw rest ih =>
    intro cur
    unfold expandLoop
    by_cases hmin : countWords cur < minA
    · rw [if_pos hmin]
      by_cases href : (detectRefusal R raw).isRefusal = true
      · rw [if_pos href]
        by_cases hbad : ((detectRefusal R (detectRefusal R raw).cleanedText).isRefusal
            || decide (countWords (detectRefusal R raw).cleanedText < 100)) = true
        · rw [if_pos hbad]
          exact ih cur
        · rw [if_neg hbad]
          by_cases hlonger : countWords cur < countWords (detectRefusal R raw).cleanedText
          · rw [if_pos hlonger]
            intro _
            have := expandLoop_mono R isMeta minA rest (detectRefusal R raw).cleanedText
            omega
          · rw [if_neg hlonger]
            exact ih cur
      · rw [if_neg href]
        by_cases hlonger : countWords cur < countWords (stripExpandPreamble isMeta raw)
        · rw [if_pos hlonger]
          intro _
          have := expandLoop_mono R isMeta minA rest (stripExpandPreamble isMeta raw)
          omega
        · rw [if_neg hlonger]
          intro h
          exact absurd rfl h
    · rw [if_neg hmin]
      intro h
      exact absurd rfl h

theorem writerExpandLoop_mono (R : RefusalRules) (minA : Nat) :
    ∀ (attempts : List (List Char)) (cur : List Char),
    countWords cur ≤ countWords (writerExpandLoop R minA attempts cur (countWords cur)) := by
  intro attempts
  induction attempts with
  | nil => intro cur; simp [writerExpandLoop]
  | cons raw rest ih =>
    intro cur
    unfold writerExpandLoop
    by_cases hmin : countWords cur < minA
    · rw [if_pos hmin]
      by_cases hlonger : countWords cur
          < countWords (if (detectRefusal R raw).isRefusal then
              (detectRefusal R raw).cleanedText else raw)
      · rw [if_pos hlonger]
        have := ih (if (detectRefusal R raw).isRefusal then
          (detectRefusal R raw).cleanedText else raw)
        omega
      · rw [if_neg hlonger]
    · rw [if_neg hmin]

theorem writerExpandLoop_strict (R : RefusalRules) (minA : Nat) :
    ∀ (attempts : List (List Char)) (cur : List Char),
    writerExpandLoop R minA attempts cur (countWords cur) ≠ cur →
    countWords cur < countWords (writerExpandLoop R minA attempts cur (countWords cur)) := by
  intro attempts
  induction attempts with
  | nil => intro cur h; exact absurd rfl h
  | cons raw rest ih =>
    intro cur
    unfold writerExpandLoop
    by_cases hmin : countWords cur < minA
    · rw [if_pos hmin]
      by_cases hlonger : countWords cur
          < countWords (if (detectRefusal R raw).isRefusal then
              (detectRefusal R raw).cleanedText else raw)
      · rw [if_pos hlonger]
        intro _
        have := writerExpandLoop_mono R minA rest (if (detectRefusal R raw).isRefusal then
          (detectRefusal R raw).cleanedText else raw)
        omega
      · rw [if_neg hlonger]
        intro h
        exact absurd rfl h
    · rw [if_neg hmin]
      intro h
      exact absurd rfl h

set_option maxRecDepth 100000 in
/-- C5 counterexample: in BookSession.expandIfNeeded an attempt that
yields fewer words than the current text does not necessarily end the
loop. Starting from a 10-word text with minimum 34, attempt 1 is a
refusal whose salvage has 3 words (fewer than the current 10), yet the
loop continues, adopts the 50-word attempt 2 and returns it instead of
terminating with the prior text. -/
theorem expand_loop_regression_counterexample :
    countWords ((detectRefusal rulesXY (refusalAttempt 3)).cleanedText)
        < countWords (repWords 10) ∧
    expandIfNeeded rulesXY (fun _ => false) 34 [refusalAttempt 3, repWords 50]
        (repWords 10) = repWords 50 ∧
    repWords 50 ≠ repWords 10 := by
  refine ⟨by decide, by decide, by decide⟩

/-- C5 amended: in both expand loops the retained word count is
monotonically non-decreasing and a result is adopted only when its word
count strictly exceeds the current one. The loop terminates on a
non-improving attempt only in these cases: in writerNode on every such
attempt, in BookSession.expandIfNeeded only when the attempt is a
non-refusal; a refusal attempt whose salvage is unusable or not longer
is skipped and the loop continues with the next attempt, keeping the
current text. -/
theorem expand_loop_monotonicity_amended :
    (∀ (R : RefusalRules) (isMeta : List Char → Bool) (minA : Nat)
        (attempts : List (List Char)) (content : List Char),
      countWords content ≤ countWords (expandIfNeeded R isMeta minA attempts content)) ∧
    (∀ (R : RefusalRules) (isMeta : List Char → Bool) (minA : Nat)
        (attempts : List (List Char)) (content : List Char),
      expandIfNeeded R isMeta minA attempts content ≠ content →
      countWords content < countWords (expandIfNeeded R isMeta minA attempts content)) ∧
    (∀ (R : RefusalRules) (minA : Nat) (attempts : List (List Char)) (content : List Char),
      countWords content
        ≤ countWords (writerExpandLoop R minA attempts content (countWords content))) ∧
    (∀ (R : RefusalRules) (minA : Nat) (attempts : List (List Char)) (content : List Char),
      writerExpandLoop R minA attempts content (countWords content) ≠ content →
      countWords content
        < countWords (writerExpandLoop R minA attempts content (countWords content))) ∧
    (∀ (R : RefusalRules) (isMeta : List Char → Bool) (minA : Nat)
        (raw : List Char) (rest : List (List Char)) (cur : List Char),
      countWords cur < minA →
      (detectRefusal R raw).isRefusal = false →
      countWords (stripExpandPreamble isMeta raw) ≤ countWords cur →
      expandLoop R isMeta minA (raw :: rest) cur (countWords cur) = cur) ∧
    (∀ (R : RefusalRules) (isMeta : List Char → Bool) (minA : Nat)
        (raw : List Char) (rest : List (List Char)) (cur : List Char),
      countWords cur < minA →
      (detectRefusal R raw).isRefusal = true →
      ((detectRefusal R (detectRefusal R raw).cleanedText).isRefusal = true ∨
        countWords (detectRefusal R raw).cleanedText < 100 ∨
        countWords (detectRefusal R raw).cleanedText ≤ countWords cur) →
      expandLoop R isMeta minA (raw :: rest) cur (countWords cur)
        = expandLoop R isMeta minA rest cur (countWords cur)) ∧
    (∀ (R : RefusalRules) (minA : Nat)
        (raw : List Char) (rest : List (List Char)) (cur : List Char),
      countWords cur < minA →
      countWords (if (detectRefusal R raw).isRefusal then
          (detectRefusal R raw).cleanedText else raw) ≤ countWords cur →
      writerExpandLoop R minA (raw :: rest) cur (countWords cur) = cur) := by
  refine ⟨?_, ?_, ?_, ?_, ?_, ?_, ?_⟩
  · intro R isMeta minA attempts content
    exact expandLoop_mono R isMeta minA attempts content
  · intro R isMeta minA attempts content h
    exact expandLoop_strict R isMeta minA attempts content h
  · intro R minA attempts content
    exact writerExpandLoop_mono R minA attempts content
  · intro R minA attempts content h
    exact writerExpandLoop_strict R minA attempts content h
  · intro R isMeta minA raw rest cur hmin href hshort
    simp only [expandLoop]
    rw [if_pos hmin, if_neg (by simp [href]), if_neg (by omega :
      ¬ countWords cur < countWords (stripExpandPreamble isMeta raw))]
  · intro R isMeta minA raw rest cur hmin href hskip
    simp only [expandLoop]
    rw [if_pos hmin, if_pos href]
    rcases hskip with h | h | h
    · rw [if_pos (by simp [h])]
    · rw [if_pos (by simp [h])]
    · by_cases hbad : ((detectRefusal R (detectRefusal R raw).cleanedText).isRefusal
          || decide (countWords (detectRefusal R raw).cleanedText < 100)) = true
      · rw [if_pos hbad]
      · rw [if_neg hbad, if_neg (by omega :
          ¬ countWords cur < countWords (detectRefusal R raw).cleanedText)]
  · intro R minA raw rest cur hmin hshort
    simp only [writerExpandLoop]
    rw [if_pos hmin, if_neg (by omega : ¬ countWords cur
      < countWords (if (detectRefusal R raw).isRefusal then
          (detectRefusal R raw).cleanedText else raw))]

/-- Witness for the amended C5 at a concrete input: a non-refusal
attempt of 5 words against a 10-word current text ends the loop with
the current text unchanged. -/
theorem expand_loop_monotonicity_amended_witness :
    expandLoop rulesXY (fun _ => false) 34 [repWords 5] (repWords 10)
        (countWords (repWords 10)) = repWords 10 :=
  expand_loop_monotonicity_amended.2.2.2.2.1 rulesXY (fun _ => false) 34
    (repWords 5) [] (repWords 10) (by decide) (by decide) (by decide)

/-- C8 counterexample: expandChapter does not fail on an unapproved
outline. In a state whose outline is unapproved but which holds a
generated chapter 1, expandChapter proceeds: it returns the expanded
chapter and mutates the chapters map instead of throwing a dedicated
error. -/
theorem expandChapter_no_approval_gate :
    demoStateUnapproved.outlineApproved = false ∧
    (expandChapterM (.ok (repWords 50)) [] demoStateUnapproved 1).2.toOption
      = some { demoChapterContent with content := repWords 50, wordCount := 50, summary := [] } ∧
    (expandChapterM (.ok (repWords 50)) [] demoStateUnapproved 1).1.chapters
      ≠ demoStateUnapproved.chapters := by
  refine ⟨rfl, by decide, by decide⟩

/-- C8 amended: generateChapter, rewriteChapter and generateAllRemaining
fail with the dedicated approval error and leave the session state
unchanged (no generation performed) when the outline is not approved;
expandChapter only fails, with its own dedicated error, when the
chapter has not been generated, and otherwise proceeds with generation
and chapter-state mutation regardless of the outline approval flag. -/
theorem approval_gate_amended :
    (∀ (R : RefusalRules) (maxEC : Nat) (cwt : Nat → Int → Bool)
        (o : ChapterOracles) (co : ContinuityOracles) (st : SessionState) (n : Option Nat),
      st.outlineApproved = false →
      generateChapterM R maxEC cwt o co st n = (st, .error .outlineNotApproved)) ∧
    (∀ (o : ChapterOracles) (co : ContinuityOracles) (st : SessionState) (n : Nat),
      st.outlineApproved = false →
      rewriteChapterM o co st n = (st, .error .outlineNotApproved)) ∧
    (∀ (R : RefusalRules) (maxEC : Nat) (cwt : Nat → Int → Bool)
        (oracleFor : Nat → ChapterOracles) (coFor : Nat → ContinuityOracles)
        (st : SessionState),
      st.outlineApproved = false →
      generateAllRemainingM R maxEC cwt oracleFor coFor st
        = (st, .error .outlineNotApproved)) ∧
    (∀ (er : Except SessErr (List Char)) (sm : List Char) (st : SessionState) (n : Nat),
      mapGet st.chapters n = none →
      expandChapterM er sm st n = (st, .error .chapterNotGenerated)) ∧
    (∀ (t sm : List Char) (st : SessionState) (n : Nat) (ex : ChapterContent),
      st.outlineApproved = false →
      mapGet st.chapters n = some ex →
      (expandChapterM (.ok t) sm st n).2
        = .ok { ex with content := t, wordCount := countWords t, summary := sm }) := by
  refine ⟨?_, ?_, ?_, ?_, ?_⟩
  · intro R maxEC cwt o co st n h
    unfold generateChapterM
    rw [h]
    rfl
  · intro o co st n h
    unfold rewriteChapterM
    rw [h]
    rfl
  · intro R maxEC cwt oracleFor coFor st h
    unfold generateAllRemainingM
    rw [h]
    rfl
  · intro er sm st n h
    unfold expandChapterM
    rw [h]
  · intro t sm st n ex _ h
    unfold expandChapterM
    rw [h]

/-- Witness for the amended C8 at a concrete input: generateChapter on
the unapproved state fails with the dedicated error and the state is
unchanged. -/
theorem approval_gate_amended_witness :
    generateChapterM rulesXY 3 (fun _ _ => true) demoOraclesReject demoContinuityOff
        demoStateUnapproved (some 1)
      = (demoStateUnapproved, .error .outlineNotApproved) :=
  approval_gate_amended.1 rulesXY 3 (fun _ _ => true) demoOraclesReject
    demoContinuityOff demoStateUnapproved (some 1) rfl

theorem mapGet_mapSet_self (m : List (Nat × α)) (k : Nat) (v : α) :
    mapGet (mapSet m k v) k = some v := by
  induction m with
  | nil => simp [mapSet, mapGet, List.find?]
  | cons p rest ih =>
    by_cases h : p.1 = k
    · simp [mapSet, h, mapGet, List.find?]
    · simp only [mapSet, if_neg h]
      simpa [mapGet, List.find?, h] using ih

theorem mapGet_mapSet_other (m : List (Nat × α)) (k k2 : Nat) (v : α) (h : k ≠ k2) :
    mapGet (mapSet m k2 v) k = mapGet m k := by
  induction m with
  | nil => simp [mapSet, mapGet, List.find?, Ne.symm h]
  | cons p rest ih =>
    by_cases hp : p.1 = k2
    · simp [mapSet, hp, mapGet, List.find?, Ne.symm h]
    · simp only [mapSet, if_neg hp]
      by_cases hk : p.1 = k
      · simp [mapGet, List.find?, hk]
      · simpa [mapGet, List.find?, hk] using ih

theorem mapSet_mapSet_same (m : List (Nat × α)) (k : Nat) (v1 v2 : α) :
    mapSet (mapSet m k v1) k v2 = mapSet m k v2 := by
  induction m with
  | nil => simp [mapSet]
  | cons p rest ih =>
    by_cases h : p.1 = k
    · simp [mapSet, h]
    · simp [mapSet, h, ih]

theorem updateContinuity_preserves (co : ContinuityOracles) (ch : ChapterContent)
    (st : SessionState) :
    (updateContinuity co ch st).chapterStatuses = st.chapterStatuses ∧
    (updateContinuity co ch st).chapters = st.chapters ∧
    (updateContinuity co ch st).events = st.events := by
  unfold updateContinuity
  by_cases h : (!co.hasModel) = true
  · rw [if_pos h]
    exact ⟨rfl, rfl, rfl⟩
  · rw [if_neg h]
    cases co.generated with
    | error e => exact ⟨rfl, rfl, rfl⟩
    | ok s => exact ⟨rfl, rfl, rfl⟩

theorem generateChapterM_error_state (R : RefusalRules) (maxEC : Nat)
    (cwt : Nat → Int → Bool) (o : ChapterOracles) (co : ContinuityOracles)
    (st : SessionState) (n : Nat) (outline : Outline) (plan : ChapterPlan) (e : SessErr)
    (happ : st.outlineApproved = true) (hout : st.outline = some outline)
    (hfind : outline.chapters.find? (fun c => c.number == n) = some plan)
    (hpipe : chapterPipeline R maxEC o = .error e) :
    generateChapterM R maxEC cwt o co st (some n)
      = ({ st with
           chapterStatuses := mapSet st.chapterStatuses n .failed
           events := st.events ++ [.chapterFailed n] }, .error e) := by
  simp only [generateChapterM, happ, Bool.not_true, Bool.false_eq_true, if_false,
    hout, hfind, hpipe]
  rw [mapSet_mapSet_same]

theorem generateChapterM_cases (R : RefusalRules) (maxEC : Nat) (cwt : Nat → Int → Bool)
    (o : ChapterOracles) (co : ContinuityOracles) (st : SessionState) (n : Nat) :
    ((generateChapterM R maxEC cwt o co st (some n)).1.chapterStatuses = st.chapterStatuses ∧
      ∃ e, (generateChapterM R maxEC cwt o co st (some n)).2 = .error e) ∨
    ((generateChapterM R maxEC cwt o co st (some n)).1.chapterStatuses
        = mapSet st.chapterStatuses n ChapterStatus.failed ∧
      ∃ e, (generateChapterM R maxEC cwt o co st (some n)).2 = .error e) ∨
    ((generateChapterM R maxEC cwt o co st (some n)).1.chapterStatuses
        = mapSet st.chapterStatuses n ChapterStatus.approved ∧
      ∃ r, (generateChapterM R maxEC cwt o co st (some n)).2 = .ok r) := by
  by_cases happ : st.outlineApproved = true
  · cases hout : st.outline with
    | none =>
      left
      constructor
      · simp [generateChapterM, happ, hout]
      · exact ⟨.noOutline, by simp [generateChapterM, happ, hout]⟩
    | some outline =>
      cases hfind : outline.chapters.find? (fun c => c.number == n) with
      | none =>
        left
        constructor
        · simp [generateChapterM, happ, hout, hfind]
        · exact ⟨.chapterNotInOutline, by simp [generateChapterM, happ, hout, hfind]⟩
      | some plan =>
        cases hpipe : chapterPipeline R maxEC o with
        | error e =>
          right; left
          rw [generateChapterM_error_state R maxEC cwt o co st n outline plan e
            happ hout hfind hpipe]
          exact ⟨rfl, e, rfl⟩
        | ok res =>
          right; right
          simp only [generateChapterM, happ, Bool.not_true, Bool.false_eq_true, if_false,
            hout, hfind, hpipe]
          constructor
          · split
            · rw [(updateContinuity_preserves co _ _).1]
              exact mapSet_mapSet_same _ _ _ _
            · rw [(updateContinuity_preserves co _ _).1]
              exact mapSet_mapSet_same _ _ _ _
          · exact ⟨_, rfl⟩
  · left
    have happf : st.outlineApproved = false := by
      cases h : st.outlineApproved
      · rfl
      · exact absurd h happ
    constructor
    · simp [generateChapterM, happf]
    · exact ⟨.outlineNotApproved, by simp [generateChapterM, happf]⟩

theorem terminal_after_step (R : RefusalRules) (maxEC : Nat) (cwt : Nat → Int → Bool)
    (o : ChapterOracles) (co : ContinuityOracles) (st st1 : SessionState)
    (num : Nat) (r2 : Except SessErr ChapterResultM)
    (heq : generateChapterM R maxEC cwt o co st (some num) = (st1, r2)) (k : Nat)
    (h : mapGet st.chapterStatuses k = some ChapterStatus.approved ∨
         mapGet st.chapterStatuses k = some ChapterStatus.failed) :
    mapGet st1.chapterStatuses k = some ChapterStatus.approved ∨
    mapGet st1.chapterStatuses k = some ChapterStatus.failed := by
  have hcases := generateChapterM_cases R maxEC cwt o co st num
  rw [heq] at hcases
  by_cases hk : k = num
  · subst hk
    rcases hcases with ⟨hs, _⟩ | ⟨hs, _⟩ | ⟨hs, _⟩
    · rw [hs]; exact h
    · rw [hs, mapGet_mapSet_self]; right; rfl
    · rw [hs, mapGet_mapSet_self]; left; rfl
  · rcases hcases with ⟨hs, _⟩ | ⟨hs, _⟩ | ⟨hs, _⟩ <;>
      rw [hs] <;> first
        | (exact h)
        | (rw [mapGet_mapSet_other _ _ _ _ hk]; exact h)

theorem generateAllGo_preserves (R : RefusalRules) (maxEC : Nat) (cwt : Nat → Int → Bool)
    (oracleFor : Nat → ChapterOracles) (coFor : Nat → ContinuityOracles) :
    ∀ (chs : List ChapterPlan) (st : SessionState) (k : Nat),
    (mapGet st.chapterStatuses k = some ChapterStatus.approved ∨
     mapGet st.chapterStatuses k = some ChapterStatus.failed) →
    (mapGet (generateAllGo R maxEC cwt oracleFor coFor chs st).1.chapterStatuses k
        = some ChapterStatus.approved ∨
     mapGet (generateAllGo R maxEC cwt oracleFor coFor chs st).1.chapterStatuses k
        = some ChapterStatus.failed) := by
  intro chs
  induction chs with
  | nil => intro st k h; exact h
  | cons ch rest ih =>
    intro st k h
    simp only [generateAllGo]
    split
    · exact ih st k h
    · cases hgen : generateChapterM R maxEC cwt (oracleFor ch.number) (coFor ch.number)
          st (some ch.number) with
      | mk st1 r2 =>
        cases r2 with
        | ok result =>
          show mapGet (generateAllGo R maxEC cwt oracleFor coFor rest st1).1.chapterStatuses k
              = some ChapterStatus.approved ∨
            mapGet (generateAllGo R maxEC cwt oracleFor coFor rest st1).1.chapterStatuses k
              = some ChapterStatus.failed
          exact ih st1 k (terminal_after_step R maxEC cwt (oracleFor ch.number)
            (coFor ch.number) st st1 ch.number (.ok result) hgen k h)
        | error e =>
          have hprop : mapGet (mapSet st1.chapterStatuses ch.number ChapterStatus.failed) k
              = some ChapterStatus.approved ∨
            mapGet (mapSet st1.chapterStatuses ch.number ChapterStatus.failed) k
              = some ChapterStatus.failed := by
            by_cases hk : k = ch.number
            · subst hk
              rw [mapGet_mapSet_self]
              right
              rfl
            · rw [mapGet_mapSet_other _ _ _ _ hk]
              exact terminal_after_step R maxEC cwt (oracleFor ch.number)
                (coFor ch.number) st st1 ch.number (.error e) hgen k h
          exact ih _ k hprop

theorem generateAllGo_terminal (R : RefusalRules) (maxEC : Nat) (cwt : Nat → Int → Bool)
    (oracleFor : Nat → ChapterOracles) (coFor : Nat → ContinuityOracles) :
    ∀ (chs : List ChapterPlan) (st : SessionState),
    ∀ ch ∈ chs,
    mapGet (generateAllGo R maxEC cwt oracleFor coFor chs st).1.chapterStatuses ch.number
        = some ChapterStatus.approved ∨
    mapGet (generateAllGo R maxEC cwt oracleFor coFor chs st).1.chapterStatuses ch.number
        = some ChapterStatus.failed := by
  intro chs
  induction chs with
  | nil => intro st ch hch; simp at hch
  | cons ch0 rest ih =>
    intro st ch hch
    rcases List.mem_cons.1 hch with hc | hc
    · subst hc
      simp only [generateAllGo]
      split
      · next hskip =>
        refine generateAllGo_preserves R maxEC cwt oracleFor coFor rest st ch.number ?_
        rcases (Bool.or_eq_true _ _) ▸ hskip with h1 | h1
        · exact Or.inl (of_decide_eq_true h1)
        · exact Or.inr (of_decide_eq_true h1)
      · cases hgen : generateChapterM R maxEC cwt (oracleFor ch.number) (coFor ch.number)
            st (some ch.number) with
        | mk st1 r2 =>
          cases r2 with
          | ok result =>
            have hcases := generateChapterM_cases R maxEC cwt (oracleFor ch.number)
              (coFor ch.number) st ch.number
            rw [hgen] at hcases
            have hst1 : st1.chapterStatuses
                = mapSet st.chapterStatuses ch.number ChapterStatus.approved := by
              rcases hcases with ⟨_, e, he⟩ | ⟨_, e, he⟩ | ⟨hs, _⟩
              · exact absurd he (by simp)
              · exact absurd he (by simp)
              · exact hs
            show mapGet (generateAllGo R maxEC cwt oracleFor coFor rest st1).1.chapterStatuses
                ch.number = some ChapterStatus.approved ∨
              mapGet (generateAllGo R maxEC cwt oracleFor coFor rest st1).1.chapterStatuses
                ch.number = some ChapterStatus.failed
            refine generateAllGo_preserves R maxEC cwt oracleFor coFor rest st1 ch.number ?_
            rw [hst1, mapGet_mapSet_self]
            left
            rfl
          | error e =>
            refine generateAllGo_preserves R maxEC cwt oracleFor coFor rest _ ch.number ?_
            show mapGet (mapSet st1.chapterStatuses ch.number ChapterStatus.failed) ch.number
                = some ChapterStatus.approved ∨
              mapGet (mapSet st1.chapterStatuses ch.number ChapterStatus.failed) ch.number
                = some ChapterStatus.failed
            rw [mapGet_mapSet_self]
            right
            rfl
    · simp only [generateAllGo]
      split
      · exact ih st ch hc
      · cases hgen : generateChapterM R maxEC cwt (oracleFor ch0.number) (coFor ch0.number)
            st (some ch0.number) with
        | mk st1 r2 =>
          cases r2 with
          | ok result =>
            show mapGet (generateAllGo R maxEC cwt oracleFor coFor rest st1).1.chapterStatuses
                ch.number = some ChapterStatus.approved ∨
              mapGet (generateAllGo R maxEC cwt oracleFor coFor rest st1).1.chapterStatuses
                ch.number = some ChapterStatus.failed
            exact ih st1 ch hc
          | error e =>
            exact ih _ ch hc

/-- C9: failure semantics of chapter generation. First conjunct: when
the fallible pipeline inside generateChapter throws, the resulting
session state differs from the input state only in the failed status of
the target chapter and one appended chapter_failed event — in
particular the chapters map, the rolling summary and the previous
chapter ending are unchanged — and the error is rethrown. Second
conjunct: generateAllRemaining drives every outline chapter to a
terminal status (approved or failed), so a chapter whose generation
throws does not abort the remaining chapters. -/
theorem chapter_failure_semantics :
    (∀ (R : RefusalRules) (maxEC : Nat) (cwt : Nat → Int → Bool)
        (o : ChapterOracles) (co : ContinuityOracles) (st : SessionState)
        (n : Nat) (outline : Outline) (plan : ChapterPlan) (e : SessErr),
      st.outlineApproved = true →
      st.outline = some outline →
      outline.chapters.find? (fun c => c.number == n) = some plan →
      chapterPipeline R maxEC o = .error e →
      generateChapterM R maxEC cwt o co st (some n)
        = ({ st with
             chapterStatuses := mapSet st.chapterStatuses n ChapterStatus.failed
             events := st.events ++ [SessionEvent.chapterFailed n] }, .error e)) ∧
    (∀ (R : RefusalRules) (maxEC : Nat) (cwt : Nat → Int → Bool)
        (oracleFor : Nat → ChapterOracles) (coFor : Nat → ContinuityOracles)
        (st : SessionState) (outline : Outline),
      st.outlineApproved = true →
      st.outline = some outline →
      ∀ ch ∈ outline.chapters,
        mapGet (generateAllRemainingM R maxEC cwt oracleFor coFor st).1.chapterStatuses
            ch.number = some ChapterStatus.approved ∨
        mapGet (generateAllRemainingM R maxEC cwt oracleFor coFor st).1.chapterStatuses
            ch.number = some ChapterStatus.failed) := by
  constructor
  · intro R maxEC cwt o co st n outline plan e happ hout hfind hpipe
    exact generateChapterM_error_state R maxEC cwt o co st n outline plan e
      happ hout hfind hpipe
  · intro R maxEC cwt oracleFor coFor st outline happ hout ch hch
    simp only [generateAllRemainingM, happ, Bool.not_true, Bool.false_eq_true, if_false,
      hout]
    split
    · exact generateAllGo_terminal R maxEC cwt oracleFor coFor outline.chapters st ch hch
    · exact generateAllGo_terminal R maxEC cwt oracleFor coFor outline.chapters st ch hch

/-- Witness for C9 at a concrete input: a failing planning call on the
approved demo state marks chapter 1 failed, emits the failure event,
and leaves chapters, rolling summary and previous ending unchanged. -/
theorem chapter_failure_semantics_witness :
    generateChapterM rulesXY 3 (fun _ _ => true) demoOraclesFail demoContinuityOff
        demoStateApproved (some 1)
      = ({ demoStateApproved with
           chapterStatuses := mapSet demoStateApproved.chapterStatuses 1 ChapterStatus.failed
           events := demoStateApproved.events ++ [SessionEvent.chapterFailed 1] },
         .error .provider) :=
  chapter_failure_semantics.1 rulesXY 3 (fun _ _ => true) demoOraclesFail
    demoContinuityOff demoStateApproved 1 demoOutline1 (demoChapter 1 'A') .provider
    rfl rfl (by decide) rfl

theorem startsNl_append (xs ys : List Char) (h : xs ≠ []) :
    startsNl (xs ++ ys) = startsNl xs := by
  cases xs with
  | nil => exact absurd rfl h
  | cons c rest => simp [startsNl]

theorem endsNl_append (xs ys : List Char) (h : ys ≠ []) :
    endsNl (xs ++ ys) = endsNl ys := by
  unfold endsNl
  rw [List.reverse_append]
  exact startsNl_append _ _ (by simp [h])

theorem endsNl_cons (c : Char) (l : List Char) (h : l ≠ []) :
    endsNl (c :: l) = endsNl l :=
  endsNl_append [c] l h

theorem hasNN_append (xs ys : List Char) :
    hasNN (xs ++ ys) = (hasNN xs || (endsNl xs && startsNl ys) || hasNN ys) := by
  induction xs with
  | nil => simp [hasNN, endsNl, startsNl]
  | cons c xs ih =>
    cases xs with
    | nil =>
      cases ys with
      | nil => simp [hasNN, endsNl, startsNl]
      | cons d ys =>
        show hasNN (c :: d :: ys) = _
        simp [hasNN, endsNl, startsNl]
    | cons c2 xs2 =>
      show hasNN (c :: c2 :: (xs2 ++ ys)) = _
      rw [show hasNN (c :: c2 :: (xs2 ++ ys))
          = ((decide (c = '\n') && decide (c2 = '\n')) || hasNN (c2 :: (xs2 ++ ys)))
          from by simp [hasNN]]
      rw [show (c2 :: (xs2 ++ ys)) = ((c2 :: xs2) ++ ys) from rfl]
      rw [ih]
      rw [show hasNN (c :: c2 :: xs2)
          = ((decide (c = '\n') && decide (c2 = '\n')) || hasNN (c2 :: xs2))
          from by simp [hasNN]]
      rw [endsNl_cons c (c2 :: xs2) (by simp)]
      simp [Bool.or_assoc]

theorem hasNN_append_parts (xs ys : List Char) (h : hasNN (xs ++ ys) = false) :
    hasNN xs = false ∧ hasNN ys = false := by
  rw [hasNN_append] at h
  simp at h
  exact ⟨h.1.1, h.2⟩

theorem dropWhile_head_false {p : Char → Bool} {l t : List Char} {c : Char}
    (h : l.dropWhile p = c :: t) : p c = false := by
  induction l with
  | nil => simp [List.dropWhile] at h
  | cons d rest ih =>
    rw [List.dropWhile_cons] at h
    by_cases hd : p d = true
    · rw [if_pos hd] at h
      exact ih h
    · rw [if_neg hd] at h
      cases h
      cases hp : p c
      · rfl
      · exact absurd hp hd

theorem dropWhile_idem (p : Char → Bool) (l : List Char) :
    (l.dropWhile p).dropWhile p = l.dropWhile p := by
  cases h : l.dropWhile p with
  | nil => rfl
  | cons c t =>
    rw [List.dropWhile_cons, if_neg (by rw [dropWhile_head_false h]; simp)]

theorem trimL_idem (x : List Char) : trimL (trimL x) = trimL x :=
  dropWhile_idem isWS x

theorem isEmpty_reverse (l : List Char) : l.reverse.isEmpty = l.isEmpty := by
  cases l with
  | nil => rfl
  | cons c t =>
    cases hr : (c :: t).reverse with
    | nil => exact absurd hr (by simp)
    | cons d u => rfl

theorem trimR_append (a b : List Char) :
    trimR (a ++ b) = if (trimR b).isEmpty then trimR a else a ++ trimR b := by
  unfold trimR List.rdropWhile
  rw [List.reverse_append, List.dropWhile_append]
  by_cases h : (b.reverse.dropWhile isWS).isEmpty
  · rw [if_pos h]
    rw [if_pos (by rw [isEmpty_reverse]; exact h)]
  · rw [if_neg h]
    rw [if_neg (by rw [isEmpty_reverse]; exact h)]
    rw [List.reverse_append, List.reverse_reverse]

theorem trimR_idem (x : List Char) : trimR (trimR x) = trimR x := by
  unfold trimR List.rdropWhile
  rw [List.reverse_reverse]
  rw [dropWhile_idem]

theorem isEmptyChar_iff (l : List Char) : l.isEmpty = true ↔ l = [] := by
  cases l <;> simp [List.isEmpty]

theorem trimL_def (x : List Char) : trimL x = x.dropWhile isWS := rfl

theorem trimR_all_ws (w : List Char) (hw : ∀ c ∈ w, isWS c = true) : trimR w = [] :=
  List.rdropWhile_eq_nil_iff.mpr hw

theorem trimL_all_ws (w : List Char) (hw : ∀ c ∈ w, isWS c = true) : trimL w = [] :=
  List.dropWhile_eq_nil_iff.mpr hw

theorem trimL_append (a b : List Char) :
    trimL (a ++ b) = if (trimL a).isEmpty then trimL b else trimL a ++ b := by
  simp only [trimL_def, List.dropWhile_append]

theorem trimR_prefix_of (x : List Char) : trimR x <+: x := List.rdropWhile_prefix isWS x

theorem trimLR_comm (x : List Char) : trimL (trimR x) = trimR (trimL x) := by
  have hw : ∀ c ∈ x.takeWhile isWS, isWS c = true := fun c hc => List.mem_takeWhile_imp hc
  conv_lhs => rw [← List.takeWhile_append_dropWhile isWS x]
  rw [show (x.dropWhile isWS) = trimL x from rfl]
  rw [trimR_append]
  by_cases h : (trimR (trimL x)).isEmpty = true
  · rw [if_pos h]
    rw [trimR_all_ws _ hw]
    rw [show trimL ([] : List Char) = [] from rfl]
    rw [(isEmptyChar_iff _).mp h]
  · rw [if_neg h]
    rw [trimL_append]
    rw [trimL_all_ws _ hw]
    rw [if_pos (show ([] : List Char).isEmpty = true from rfl)]
    obtain ⟨c, t, hct, hc⟩ : ∃ c t, trimR (trimL x) = c :: t ∧ isWS c = false := by
      cases hh : trimR (trimL x) with
      | nil => rw [hh] at h; exact absurd rfl h
      | cons c t =>
        refine ⟨c, t, rfl, ?_⟩
        have hpre := trimR_prefix_of (trimL x)
        rw [hh] at hpre
        obtain ⟨r, hr⟩ := hpre
        have hhead : x.dropWhile isWS = c :: (t ++ r) := by
          rw [← trimL_def, ← hr]; rfl
        exact dropWhile_head_false hhead
    rw [hct, trimL_def, List.dropWhile_cons, if_neg (by simp [hc])]

theorem trim_trimL (x : List Char) : trim (trimL x) = trim x := by
  unfold trim
  rw [trimL_idem]

theorem trim_trimR (x : List Char) : trim (trimR x) = trim x := by
  unfold trim
  rw [trimLR_comm x, trimR_idem]

theorem trim_idem (x : List Char) : trim (trim x) = trim x :=
  (trim_trimR (trimL x)).trans (trim_trimL x)

theorem keepPara_trimL (R : RefusalRules) (p : List Char) :
    keepPara R (trimL p) = keepPara R p := by
  unfold keepPara
  rw [trim_trimL]

theorem keepPara_trimR (R : RefusalRules) (p : List Char) :
    keepPara R (trimR p) = keepPara R p := by
  unfold keepPara
  rw [trim_trimR]

theorem hasNN_cons (c : Char) (l : List Char) :
    hasNN (c :: l) = ((decide (c = '\n') && startsNl l) || hasNN l) := by
  cases l with
  | nil => simp [hasNN, startsNl]
  | cons d t => simp [hasNN, startsNl]

theorem splitGo_sep (y acc : List Char) :
    splitGo false ('\n' :: '\n' :: y) acc = acc.reverse :: splitGo true y [] := rfl

theorem splitGo_push_char (c : Char) (y acc : List Char)
    (h : c = '\n' → startsNl y = false) :
    splitGo false (c :: y) acc = splitGo false y (c :: acc) := by
  by_cases hc : c = '\n'
  · subst hc
    cases y with
    | nil => simp [splitGo]
    | cons d t =>
      have h2 := h rfl
      have hd : ¬ d = '\n' := by
        simp [startsNl] at h2
        exact h2
      simp [splitGo, hd]
  · simp [splitGo, hc]

theorem splitGo_noNN (y : List Char) (hy : hasNN y = false) :
    ∀ acc, splitGo false y acc = [acc.reverse ++ y] := by
  induction y with
  | nil => intro acc; simp [splitGo]
  | cons c y ih =>
    intro acc
    rw [hasNN_cons] at hy
    simp at hy
    rw [splitGo_push_char c y acc hy.1]
    rw [ih hy.2]
    simp

theorem splitPP_noNN (x : List Char) (hx : hasNN x = false) : splitPP x = [x] := by
  unfold splitPP
  rw [splitGo_noNN x hx]
  simp

theorem splitGo_push (p : List Char) (hp : hasNN p = false) (he : endsNl p = false) :
    ∀ (X acc : List Char), splitGo false (p ++ '\n' :: '\n' :: X) acc
      = (acc.reverse ++ p) :: splitGo true X [] := by
  induction p with
  | nil => intro X acc; simp [splitGo_sep]
  | cons c p ih =>
    intro X acc
    have hp2 : hasNN p = false := by
      rw [hasNN_cons] at hp
      simp at hp
      exact hp.2
    have he2 : endsNl p = false := by
      cases p with
      | nil => rfl
      | cons e t =>
        rw [endsNl_cons c (e :: t) (by simp)] at he
        exact he
    have hstep : c = '\n' → startsNl (p ++ '\n' :: '\n' :: X) = false := by
      intro hc
      cases p with
      | nil =>
        exfalso
        rw [hc] at he
        simp [endsNl, startsNl] at he
      | cons d t =>
        rw [startsNl_append (d :: t) _ (by simp)]
        rw [hasNN_cons, hc] at hp
        simp at hp
        exact hp.1
    rw [show ((c :: p) ++ '\n' :: '\n' :: X) = c :: (p ++ '\n' :: '\n' :: X) from rfl]
    rw [splitGo_push_char c _ acc hstep]
    rw [ih hp2 he2 X (c :: acc)]
    simp

theorem splitGo_true_eq (y : List Char) :
    ∀ acc, splitGo true y acc = splitPP (y.dropWhile (fun c => decide (c = '\n'))) := by
  induction y with
  | nil => intro acc; rfl
  | cons c y ih =>
    intro acc
    by_cases hc : c = '\n'
    · subst hc
      rw [show splitGo true ('\n' :: y) acc = splitGo true y acc from rfl]
      rw [ih acc]
      simp
    · rw [List.dropWhile_cons]
      rw [if_neg (by simp [hc])]
      have h1 : splitGo true (c :: y) acc = splitGo false y [c] := by simp [splitGo, hc]
      have h2 : splitPP (c :: y) = splitGo false y [c] :=
        splitGo_push_char c y [] (fun hcc => absurd hcc hc)
      rw [h1, h2]

theorem startsNl_dropNl (rest : List Char) :
    startsNl (rest.dropWhile (fun c => decide (c = '\n'))) = false := by
  cases hyc : rest.dropWhile (fun c => decide (c = '\n')) with
  | nil => rfl
  | cons d t =>
    have hd := dropWhile_head_false hyc
    simp at hd
    simp [startsNl, hd]

theorem splitGo_false_head (y : List Char) :
    ∀ acc, ∃ t ps, splitGo false y acc = (acc.reverse ++ t) :: ps := by
  induction y with
  | nil => intro acc; exact ⟨[], [], by simp [splitGo]⟩
  | cons c y ih =>
    intro acc
    by_cases hsep : c = '\n' ∧ startsNl y = true
    · obtain ⟨hc, hs⟩ := hsep
      subst hc
      cases y with
      | nil => simp [startsNl] at hs
      | cons d t =>
        have hd : d = '\n' := by
          simp [startsNl] at hs
          exact hs
        subst hd
        exact ⟨[], splitGo true t [], by rw [splitGo_sep]; simp⟩
    · have hstep : c = '\n' → startsNl y = false := by
        intro hc
        cases hs : startsNl y
        · rfl
        · exact absurd ⟨hc, hs⟩ hsep
      rw [splitGo_push_char c y acc hstep]
      obtain ⟨t, ps, heq⟩ := ih (c :: acc)
      exact ⟨c :: t, ps, by rw [heq]; simp⟩

theorem hasNN_decompose (x : List Char) (h : hasNN x = true) :
    ∃ p rest, x = p ++ '\n' :: '\n' :: rest ∧ hasNN p = false ∧ endsNl p = false := by
  induction x with
  | nil => simp [hasNN] at h
  | cons c x ih =>
    by_cases hsep : c = '\n' ∧ startsNl x = true
    · obtain ⟨hc, hs⟩ := hsep
      subst hc
      cases x with
      | nil => simp [startsNl] at hs
      | cons d t =>
        have hd : d = '\n' := by
          simp [startsNl] at hs
          exact hs
        subst hd
        exact ⟨[], t, rfl, rfl, rfl⟩
    · have hx : hasNN x = true := by
        rw [hasNN_cons] at h
        rcases (Bool.or_eq_true _ _) ▸ h with h1 | h1
        · exfalso
          have hand := Bool.and_eq_true _ _ ▸ h1
          exact hsep ⟨by simpa using hand.1, hand.2⟩
        · exact h1
      obtain ⟨p, rest, hxe, hpN, hpe⟩ := ih hx
      refine ⟨c :: p, rest, by rw [hxe]; rfl, ?_, ?_⟩
      · rw [hasNN_cons, hpN]
        by_cases hc : c = '\n'
        · have hsx : startsNl x = false := by
            cases hs : startsNl x
            · rfl
            · exact absurd ⟨hc, hs⟩ hsep
          cases p with
          | nil =>
            exfalso
            rw [hxe] at hsx
            simp [startsNl] at hsx
          | cons e t =>
            have hse : startsNl (e :: t) = false := by
              rw [hxe, startsNl_append (e :: t) _ (by simp)] at hsx
              exact hsx
            rw [hse]
            simp
        · simp [hc]
      · cases p with
        | nil =>
          have hc : ¬ c = '\n' := by
            intro hc
            apply hsep
            refine ⟨hc, ?_⟩
            rw [hxe]
            rfl
          simp [endsNl, startsNl, hc]
        | cons e t =>
          rw [endsNl_cons c (e :: t) (by simp)]
          exact hpe

theorem GoodTail_of_splitPP (y : List Char) (hG : GoodPieces (splitPP y))
    (hs : startsNl y = false) : GoodTail (splitPP y) := by
  cases y with
  | nil =>
    show GoodTail [[]]
    exact ⟨rfl, rfl, fun h => absurd rfl h, trivial⟩
  | cons c y =>
    have hc : ¬ c = '\n' := by
      simp [startsNl] at hs
      exact hs
    have h1 : splitPP (c :: y) = splitGo false y [c] :=
      splitGo_push_char c y [] (fun hcc => absurd hcc hc)
    obtain ⟨t, ps, heq⟩ := splitGo_false_head y [c]
    rw [h1, heq] at hG ⊢
    obtain ⟨g1, g2, g3⟩ := hG
    refine ⟨g1, ?_, ?_, g3⟩
    · show startsNl (c :: t) = false
      simp [startsNl, hc]
    · intro hps
      exact ⟨g2 hps, by show c :: t ≠ []; simp⟩

theorem GoodPieces_splitPP_aux : ∀ (n : Nat) (x : List Char), x.length ≤ n →
    GoodPieces (splitPP x) := by
  intro n
  induction n with
  | zero =>
    intro x hx
    have hnil : x = [] := List.length_eq_zero.mp (Nat.le_zero.mp hx)
    subst hnil
    show GoodPieces [[]]
    exact ⟨rfl, fun h => absurd rfl h, trivial⟩
  | succ n ih =>
    intro x hx
    by_cases hN : hasNN x = true
    · obtain ⟨p, rest, hxe, hpN, hpe⟩ := hasNN_decompose x hN
      subst hxe
      have h1 : splitPP (p ++ '\n' :: '\n' :: rest) = p :: splitGo true rest [] :=
        splitGo_push p hpN hpe rest []
      rw [h1, splitGo_true_eq rest []]
      have hylen : (rest.dropWhile (fun c => decide (c = '\n'))).length ≤ n := by
        have hsub : (rest.dropWhile (fun c => decide (c = '\n'))).length ≤ rest.length :=
          (List.dropWhile_suffix _).sublist.length_le
        have hxl : rest.length + 2 ≤ n + 1 := by
          simp [List.length_append] at hx
          omega
        omega
      have hG : GoodPieces (splitPP (rest.dropWhile (fun c => decide (c = '\n')))) :=
        ih _ hylen
      have hT : GoodTail (splitPP (rest.dropWhile (fun c => decide (c = '\n')))) :=
        GoodTail_of_splitPP _ hG (startsNl_dropNl rest)
      exact ⟨hpN, fun _ => hpe, hT⟩
    · have hNf : hasNN x = false := by
        revert hN
        cases hasNN x <;> simp
      rw [splitPP_noNN x hNf]
      exact ⟨hNf, fun h => absurd rfl h, trivial⟩

theorem GoodPieces_splitPP (x : List Char) : GoodPieces (splitPP x) :=
  GoodPieces_splitPP_aux x.length x (Nat.le_refl _)

theorem splitGo_true_join (qs : List (List Char)) : ∀ q, GoodTail (q :: qs) →
    ∀ acc, splitGo true (joinPP (q :: qs)) acc = q :: qs := by
  induction qs with
  | nil =>
    intro q hq acc
    obtain ⟨h1, h2, _, _⟩ := hq
    show splitGo true (joinPP [q]) acc = [q]
    cases q with
    | nil => rfl
    | cons c t =>
      have hc : ¬ c = '\n' := by
        simp [startsNl] at h2
        exact h2
      have hstep : splitGo true (c :: t) acc = splitGo false t [c] := by simp [splitGo, hc]
      have ht : hasNN t = false := by
        rw [hasNN_cons] at h1
        simp at h1
        exact h1.2
      rw [show joinPP [c :: t] = c :: t from rfl, hstep]
      rw [splitGo_noNN t ht [c]]
      rfl
  | cons q2 qs2 ih =>
    intro q hq acc
    obtain ⟨h1, h2, h3, h4⟩ := hq
    obtain ⟨hq_end, hq_ne⟩ := h3 (by simp)
    cases q with
    | nil => exact absurd rfl hq_ne
    | cons c t =>
      have hc : ¬ c = '\n' := by
        simp [startsNl] at h2
        exact h2
      rw [show joinPP ((c :: t) :: q2 :: qs2)
          = c :: (t ++ '\n' :: '\n' :: joinPP (q2 :: qs2)) from rfl]
      have hstep : splitGo true (c :: (t ++ '\n' :: '\n' :: joinPP (q2 :: qs2))) acc
          = splitGo false (t ++ '\n' :: '\n' :: joinPP (q2 :: qs2)) [c] := by
        simp [splitGo, hc]
      rw [hstep]
      have ht : hasNN t = false := by
        rw [hasNN_cons] at h1
        simp at h1
        exact h1.2
      have hte : endsNl t = false := by
        cases t with
        | nil => rfl
        | cons e u =>
          rw [endsNl_cons c (e :: u) (by simp)] at hq_end
          exact hq_end
      rw [splitGo_push t ht hte (joinPP (q2 :: qs2)) [c]]
      rw [ih q2 h4 []]
      rfl

theorem splitPP_joinPP (p : List Char) (ps : List (List Char))
    (hG : GoodPieces (p :: ps)) : splitPP (joinPP (p :: ps)) = p :: ps := by
  obtain ⟨h1, h2, h3⟩ := hG
  cases ps with
  | nil => exact splitPP_noNN p h1
  | cons q qs =>
    rw [show joinPP (p :: q :: qs) = p ++ '\n' :: '\n' :: joinPP (q :: qs) from rfl]
    unfold splitPP
    rw [splitGo_push p h1 (h2 (by simp)) (joinPP (q :: qs)) []]
    rw [splitGo_true_join qs q h3 []]
    rfl

theorem GoodTail_filter (f : List Char → Bool) (ps : List (List Char)) (h : GoodTail ps) :
    GoodTail (ps.filter f) := by
  induction ps with
  | nil => trivial
  | cons p ps ih =>
    obtain ⟨h1, h2, h3, h4⟩ := h
    rw [List.filter_cons]
    by_cases hf : f p = true
    · rw [if_pos hf]
      exact ⟨h1, h2, fun hne => h3 (fun hps => hne (by rw [hps]; rfl)), ih h4⟩
    · rw [if_neg hf]
      exact ih h4

theorem GoodTail_to_GoodPieces (p : List Char) (ps : List (List Char))
    (h : GoodTail (p :: ps)) : GoodPieces (p :: ps) := by
  obtain ⟨h1, h2, h3, h4⟩ := h
  exact ⟨h1, fun hne => (h3 hne).1, h4⟩

theorem GoodPieces_filter (f : List Char → Bool) (p : List Char) (ps : List (List Char))
    (h : GoodPieces (p :: ps)) :
    (p :: ps).filter f = [] ∨ GoodPieces ((p :: ps).filter f) := by
  obtain ⟨h1, h2, h3⟩ := h
  rw [List.filter_cons]
  by_cases hf : f p = true
  · rw [if_pos hf]
    right
    exact ⟨h1, fun hne => h2 (fun hps => hne (by rw [hps]; rfl)), GoodTail_filter f ps h3⟩
  · rw [if_neg hf]
    cases hq : ps.filter f with
    | nil => left; rfl
    | cons q qs =>
      right
      have hT := GoodTail_filter f ps h3
      rw [hq] at hT
      exact GoodTail_to_GoodPieces q qs hT

theorem hasNN_of_suffix (l s : List Char) (h : s <:+ l) (hl : hasNN l = false) :
    hasNN s = false := by
  obtain ⟨pre, hp⟩ := h
  rw [← hp] at hl
  exact (hasNN_append_parts pre s hl).2

theorem hasNN_of_pref (l s : List Char) (h : s <+: l) (hl : hasNN l = false) :
    hasNN s = false := by
  obtain ⟨post, hp⟩ := h
  rw [← hp] at hl
  exact (hasNN_append_parts s post hl).1

theorem endsNl_of_suffix (l s : List Char) (h : s <:+ l) (hs : s ≠ []) :
    endsNl s = endsNl l := by
  obtain ⟨pre, hp⟩ := h
  rw [← hp]
  exact (endsNl_append pre s hs).symm

theorem startsNl_of_pref (l s : List Char) (h : s <+: l) (hs : s ≠ []) :
    startsNl s = startsNl l := by
  obtain ⟨post, hp⟩ := h
  rw [← hp]
  exact (startsNl_append s post hs).symm

theorem trimL_suffix_of (x : List Char) : trimL x <:+ x := List.dropWhile_suffix isWS

theorem GoodTail_ltrim (ps : List (List Char)) (h : GoodTail ps) :
    ltrimPieces ps = [] ∨ GoodPieces (ltrimPieces ps) := by
  induction ps with
  | nil => left; rfl
  | cons p ps ih =>
    obtain ⟨h1, h2, h3, h4⟩ := h
    by_cases he : (trimL p).isEmpty = true
    · rw [show ltrimPieces (p :: ps) = ltrimPieces ps from by simp [ltrimPieces, he]]
      exact ih h4
    · rw [show ltrimPieces (p :: ps) = trimL p :: ps from by simp [ltrimPieces, he]]
      right
      have htne : trimL p ≠ [] := fun htn => he (by rw [htn]; rfl)
      refine ⟨hasNN_of_suffix p _ (trimL_suffix_of p) h1, ?_, h4⟩
      intro hne
      rw [endsNl_of_suffix p _ (trimL_suffix_of p) htne]
      exact (h3 hne).1

theorem GoodPieces_ltrim (p : List Char) (ps : List (List Char))
    (h : GoodPieces (p :: ps)) :
    ltrimPieces (p :: ps) = [] ∨ GoodPieces (ltrimPieces (p :: ps)) := by
  obtain ⟨h1, h2, h3⟩ := h
  by_cases he : (trimL p).isEmpty = true
  · rw [show ltrimPieces (p :: ps) = ltrimPieces ps from by simp [ltrimPieces, he]]
    exact GoodTail_ltrim ps h3
  · rw [show ltrimPieces (p :: ps) = trimL p :: ps from by simp [ltrimPieces, he]]
    right
    have htne : trimL p ≠ [] := fun htn => he (by rw [htn]; rfl)
    refine ⟨hasNN_of_suffix p _ (trimL_suffix_of p) h1, ?_, h3⟩
    intro hne
    rw [endsNl_of_suffix p _ (trimL_suffix_of p) htne]
    exact h2 hne

theorem rtrim_cons_nil (p : List Char) (ps : List (List Char)) (h : rtrimPieces ps = []) :
    rtrimPieces (p :: ps) = if (trimR p).isEmpty then [] else [trimR p] := by
  show (match rtrimPieces ps with
    | [] => if (trimR p).isEmpty then [] else [trimR p]
    | q :: qs => p :: q :: qs) = _
  rw [h]

theorem rtrim_cons_cons (p q : List Char) (qs ps : List (List Char))
    (h : rtrimPieces ps = q :: qs) : rtrimPieces (p :: ps) = p :: q :: qs := by
  show (match rtrimPieces ps with
    | [] => if (trimR p).isEmpty then [] else [trimR p]
    | q :: qs => p :: q :: qs) = _
  rw [h]

theorem GoodTail_rtrim (ps : List (List Char)) (h : GoodTail ps) :
    rtrimPieces ps = [] ∨ GoodTail (rtrimPieces ps) := by
  induction ps with
  | nil => left; rfl
  | cons p ps ih =>
    obtain ⟨h1, h2, h3, h4⟩ := h
    cases hrec : rtrimPieces ps with
    | nil =>
      rw [rtrim_cons_nil p ps hrec]
      by_cases he : (trimR p).isEmpty = true
      · left; rw [if_pos he]
      · right
        rw [if_neg he]
        have htne : trimR p ≠ [] := fun htn => he (by rw [htn]; rfl)
        refine ⟨hasNN_of_pref p _ (trimR_prefix_of p) h1, ?_,
          fun hh => absurd rfl hh, trivial⟩
        rw [startsNl_of_pref p _ (trimR_prefix_of p) htne]
        exact h2
    | cons q qs =>
      rw [rtrim_cons_cons p q qs ps hrec]
      right
      have hps : ps ≠ [] := by
        intro hn
        rw [hn] at hrec
        simp [rtrimPieces] at hrec
      refine ⟨h1, h2, fun _ => h3 hps, ?_⟩
      have hT := ih h4
      rw [hrec] at hT
      rcases hT with h' | h'
      · exact absurd h' (by simp)
      · exact h'

theorem GoodPieces_rtrim (p : List Char) (ps : List (List Char))
    (h : GoodPieces (p :: ps)) :
    rtrimPieces (p :: ps) = [] ∨ GoodPieces (rtrimPieces (p :: ps)) := by
  obtain ⟨h1, h2, h3⟩ := h
  cases hrec : rtrimPieces ps with
  | nil =>
    rw [rtrim_cons_nil p ps hrec]
    by_cases he : (trimR p).isEmpty = true
    · left; rw [if_pos he]
    · right
      rw [if_neg he]
      exact ⟨hasNN_of_pref p _ (trimR_prefix_of p) h1, fun hh => absurd rfl hh, trivial⟩
  | cons q qs =>
    rw [rtrim_cons_cons p q qs ps hrec]
    right
    have hps : ps ≠ [] := by
      intro hn
      rw [hn] at hrec
      simp [rtrimPieces] at hrec
    have hT := GoodTail_rtrim ps h3
    rw [hrec] at hT
    rcases hT with h' | h'
    · exact absurd h' (by simp)
    · exact ⟨h1, fun _ => h2 hps, h'⟩

theorem mem_ltrim (r : List Char) (ps : List (List Char)) (h : r ∈ ltrimPieces ps) :
    r ∈ ps ∨ ∃ p ∈ ps, r = trimL p := by
  induction ps with
  | nil => simp [ltrimPieces] at h
  | cons p ps ih =>
    by_cases he : (trimL p).isEmpty = true
    · rw [show ltrimPieces (p :: ps) = ltrimPieces ps from by simp [ltrimPieces, he]] at h
      rcases ih h with h' | ⟨q, hq, hr⟩
      · exact Or.inl (List.mem_cons_of_mem p h')
      · exact Or.inr ⟨q, List.mem_cons_of_mem p hq, hr⟩
    · rw [show ltrimPieces (p :: ps) = trimL p :: ps from by simp [ltrimPieces, he]] at h
      rcases List.mem_cons.mp h with h' | h'
      · exact Or.inr ⟨p, List.mem_cons_self p ps, h'⟩
      · exact Or.inl (List.mem_cons_of_mem p h')

theorem mem_rtrim (r : List Char) (ps : List (List Char)) (h : r ∈ rtrimPieces ps) :
    r ∈ ps ∨ ∃ p ∈ ps, r = trimR p := by
  induction ps with
  | nil => simp [rtrimPieces] at h
  | cons p ps ih =>
    cases hrec : rtrimPieces ps with
    | nil =>
      rw [rtrim_cons_nil p ps hrec] at h
      by_cases he : (trimR p).isEmpty = true
      · rw [if_pos he] at h
        simp at h
      · rw [if_neg he] at h
        exact Or.inr ⟨p, List.mem_cons_self p ps, List.mem_singleton.mp h⟩
    | cons q qs =>
      rw [rtrim_cons_cons p q qs ps hrec] at h
      rcases List.mem_cons.mp h with h' | h'
      · exact Or.inl (by rw [h']; exact List.mem_cons_self p ps)
      · have hmem : r ∈ rtrimPieces ps := by
          rw [hrec]
          exact h'
        rcases ih hmem with h'' | ⟨w, hw, hr⟩
        · exact Or.inl (List.mem_cons_of_mem p h'')
        · exact Or.inr ⟨w, List.mem_cons_of_mem p hw, hr⟩

theorem joinPP_ltrim (ps : List (List Char)) :
    trimL (joinPP ps) = joinPP (ltrimPieces ps) := by
  induction ps with
  | nil => rfl
  | cons p ps ih =>
    cases ps with
    | nil =>
      show trimL p = joinPP (ltrimPieces [p])
      by_cases he : (trimL p).isEmpty = true
      · rw [show ltrimPieces [p] = [] from by simp [ltrimPieces, he]]
        exact (isEmptyChar_iff _).mp he
      · rw [show ltrimPieces [p] = [trimL p] from by simp [ltrimPieces, he]]
        rfl
    | cons p2 ps2 =>
      rw [show joinPP (p :: p2 :: ps2) = p ++ '\n' :: '\n' :: joinPP (p2 :: ps2) from rfl]
      rw [trimL_append]
      by_cases he : (trimL p).isEmpty = true
      · rw [if_pos he]
        rw [show ltrimPieces (p :: p2 :: ps2) = ltrimPieces (p2 :: ps2) from by
          simp [ltrimPieces, he]]
        rw [← ih]
        rw [trimL_def, trimL_def]
        rw [List.dropWhile_cons, if_pos (by decide)]
        rw [List.dropWhile_cons, if_pos (by decide)]
      · rw [if_neg he]
        rw [show ltrimPieces (p :: p2 :: ps2) = trimL p :: p2 :: ps2 from by
          simp [ltrimPieces, he]]
        rfl

theorem joinPP_rtrim_ne (ps : List (List Char)) (h : rtrimPieces ps ≠ []) :
    joinPP (rtrimPieces ps) ≠ [] := by
  induction ps with
  | nil => exact absurd rfl h
  | cons p ps ih =>
    cases hrec : rtrimPieces ps with
    | nil =>
      rw [rtrim_cons_nil p ps hrec] at h ⊢
      by_cases he : (trimR p).isEmpty = true
      · rw [if_pos he] at h
        exact absurd rfl h
      · rw [if_neg he]
        show trimR p ≠ []
        exact fun htn => he (by rw [htn]; rfl)
    | cons q qs =>
      rw [rtrim_cons_cons p q qs ps hrec]
      show p ++ '\n' :: '\n' :: joinPP (q :: qs) ≠ []
      simp

theorem joinPP_rtrim (ps : List (List Char)) :
    trimR (joinPP ps) = joinPP (rtrimPieces ps) := by
  induction ps with
  | nil => rfl
  | cons p ps ih =>
    cases ps with
    | nil =>
      show trimR p = joinPP (rtrimPieces [p])
      rw [rtrim_cons_nil p [] rfl]
      by_cases he : (trimR p).isEmpty = true
      · rw [if_pos he]
        exact (isEmptyChar_iff _).mp he
      · rw [if_neg he]
        rfl
    | cons p2 ps2 =>
      rw [show joinPP (p :: p2 :: ps2) = p ++ '\n' :: '\n' :: joinPP (p2 :: ps2) from rfl]
      rw [trimR_append]
      rw [show ('\n' :: '\n' :: joinPP (p2 :: ps2))
          = ['\n', '\n'] ++ joinPP (p2 :: ps2) from rfl]
      rw [trimR_append]
      rw [ih]
      cases hrec : rtrimPieces (p2 :: ps2) with
      | nil =>
        rw [rtrim_cons_nil p (p2 :: ps2) hrec]
        rw [if_pos (show (joinPP ([] : List (List Char))).isEmpty = true from rfl)]
        rw [show trimR ['\n', '\n'] = [] from by decide]
        rw [if_pos (show ([] : List Char).isEmpty = true from rfl)]
        by_cases he : (trimR p).isEmpty = true
        · rw [if_pos he]
          exact (isEmptyChar_iff _).mp he
        · rw [if_neg he]
          rfl
      | cons q qs =>
        rw [rtrim_cons_cons p q qs (p2 :: ps2) hrec]
        have hne : joinPP (q :: qs) ≠ [] := by
          have hj := joinPP_rtrim_ne (p2 :: ps2) (by rw [hrec]; simp)
          rw [hrec] at hj
          exact hj
        have hemp : (joinPP (q :: qs)).isEmpty = false := by
          cases hj : joinPP (q :: qs) with
          | nil => exact absurd hj hne
          | cons a b => rfl
        rw [if_neg (fun hh => hne ((isEmptyChar_iff _).mp hh))]
        rw [if_neg (by simp)]
        rfl

theorem scrub_of_filtered (R : RefusalRules) (qs : List (List Char))
    (hG : qs = [] ∨ GoodPieces qs)
    (hkeep : ∀ q ∈ qs, keepPara R q = true) :
    stripRefusalContent R (trim (joinPP qs)) = trim (joinPP qs) := by
  by_cases hz0 : (trim (trim (joinPP qs))).isEmpty = true
  · unfold stripRefusalContent
    rw [if_pos hz0]
  · have hzr : trim (joinPP qs) = joinPP (rtrimPieces (ltrimPieces qs)) := by
      show trimR (trimL (joinPP qs)) = _
      rw [joinPP_ltrim, joinPP_rtrim]
    have hne : rtrimPieces (ltrimPieces qs) ≠ [] := by
      intro hnil
      rw [hnil] at hzr
      apply hz0
      rw [hzr]
      rfl
    have hGqs : GoodPieces qs := by
      rcases hG with h | h
      · exfalso
        apply hz0
        rw [h]
        rfl
      · exact h
    have hGl : GoodPieces (ltrimPieces qs) := by
      cases qs with
      | nil => exact False.elim hGqs
      | cons p ps =>
        rcases GoodPieces_ltrim p ps hGqs with h | h
        · exfalso
          apply hne
          rw [h]
          rfl
        · exact h
    have hGr : GoodPieces (rtrimPieces (ltrimPieces qs)) := by
      cases hl : ltrimPieces qs with
      | nil =>
        rw [hl] at hGl
        exact False.elim hGl
      | cons p ps =>
        rw [hl] at hGl hne
        rcases GoodPieces_rtrim p ps hGl with h | h
        · exact absurd h hne
        · exact h
    have hsplit : splitPP (trim (joinPP qs)) = rtrimPieces (ltrimPieces qs) := by
      rw [hzr]
      obtain ⟨r0, rs0, hrs⟩ : ∃ r0 rs0, rtrimPieces (ltrimPieces qs) = r0 :: rs0 := by
        cases hr : rtrimPieces (ltrimPieces qs) with
        | nil => exact absurd hr hne
        | cons a b => exact ⟨a, b, rfl⟩
      rw [hrs]
      rw [hrs] at hGr
      exact splitPP_joinPP r0 rs0 hGr
    have hkeep2 : ∀ r ∈ rtrimPieces (ltrimPieces qs), keepPara R r = true := by
      intro r hr
      rcases mem_rtrim r _ hr with h' | ⟨p, hp, hre⟩
      · rcases mem_ltrim r _ h' with h'' | ⟨w, hw, hrw⟩
        · exact hkeep r h''
        · rw [hrw, keepPara_trimL]
          exact hkeep w hw
      · rcases mem_ltrim p _ hp with h'' | ⟨w, hw, hrw⟩
        · rw [hre, keepPara_trimR]
          exact hkeep p h''
        · rw [hre, hrw, keepPara_trimR, keepPara_trimL]
          exact hkeep w hw
    unfold stripRefusalContent
    rw [if_neg hz0]
    show trim (joinPP ((splitPP (trim (joinPP qs))).filter (keepPara R))) = trim (joinPP qs)
    rw [hsplit]
    rw [List.filter_eq_self.mpr hkeep2]
    rw [← hzr]
    exact trim_idem (joinPP qs)

/-- C4: the scrub operation `stripRefusalContent` is idempotent under any
refusal rule set: for every input text, scrubbing the scrubbed text
returns it unchanged, so `scrub (scrub x) = scrub x`. -/
theorem stripRefusalContent_idem (R : RefusalRules) (x : List Char) :
    stripRefusalContent R (stripRefusalContent R x) = stripRefusalContent R x := by
  by_cases hx : (trim x).isEmpty = true
  · have hxx : stripRefusalContent R x = x := by
      unfold stripRefusalContent
      rw [if_pos hx]
    rw [hxx]
    exact hxx
  · have hz : stripRefusalContent R x
        = trim (joinPP ((splitPP x).filter (keepPara R))) := by
      unfold stripRefusalContent
      rw [if_neg hx]
      rfl
    rw [hz]
    apply scrub_of_filtered
    · cases hsp : splitPP x with
      | nil =>
        exfalso
        have hbad := GoodPieces_splitPP x
        rw [hsp] at hbad
        exact False.elim hbad
      | cons p ps =>
        have hGx := GoodPieces_splitPP x
        rw [hsp] at hGx
        exact GoodPieces_filter (keepPara R) p ps hGx
    · intro q hq
      exact (List.mem_filter.mp hq).2
